import Mathlib

/-!
# cuemaker: the streaming cue-point transcoder of `main.go`

A shallow embedding of the token loop of `main.go` and of the four
`parseAt...` handlers, followed by theorems about them.

Modelling conventions.

* The package-level variables `state`, `trackName`, `cues`, `tracksChanged`
  and `cuesAdded` are bundled in the record `Globals`, threaded through every
  handler.
* The encoder is an append-only log: every `enc.EncodeToken(t)` call appends
  `t` to the `emitted` list of the handler's `Result`. The return value of
  `EncodeToken` is discarded by the source, and so it is here.
* `cues` is a Go map. A map has unique keys and no order, and a nil map can be
  read but not written. It is modelled as `Option CueMap`, `none` being the
  nil map and `CueMap` an association list with distinct keys. The order in
  which `range cues` visits the entries is not fixed by Go; it is supplied by
  a `RangeOrder`, an arbitrary rearrangement of the entries, and a run takes
  one `RangeOrder` per token, so no two `range` statements are tied to each
  other.
* A write to the nil map panics. `Result.panicked` records it, `Result.globals`
  being the package-level variables at that moment, and a run stops there.
* The two counters are Go `int`s which are only ever incremented by one per
  emitted marker pair; they are modelled as natural numbers.
* The lines the program prints with `fmt.Printf` are diagnostics outside the
  document and are not modelled.
-/

namespace Cuemaker

/-! ## Tokens (`encoding/xml`) -/

/-- An `xml.Name`: namespace and local name. -/
structure XmlName where
  Space : String
  Local : String
deriving DecidableEq, Repr

/-- An `xml.Attr`. -/
structure Attr where
  Name : XmlName
  Value : String
deriving DecidableEq, Repr

/-- An `xml.Token`: the six concrete token types of `encoding/xml`. -/
inductive Token where
  | StartElement (name : XmlName) (attr : List Attr)
  | EndElement (name : XmlName)
  | CharData (data : String)
  | Comment (data : String)
  | ProcInst (target : String) (inst : String)
  | Directive (data : String)
deriving DecidableEq, Repr

/-- The method `StartElement.End`: the end token with the same name. -/
def Token.End (name : XmlName) : Token := Token.EndElement name

/-! ## Package-level state -/

/-- The type `ParseState` and its four constants. -/
inductive ParseState where
  | ROOT
  | DJ_PLAYLISTS
  | COLLECTION
  | TRACK
deriving DecidableEq, Repr

/-- The struct `cuePoint`. -/
structure cuePoint where
  hotCue : Bool
  cue : Bool
deriving DecidableEq, Repr

/-- One entry of the map `cues`: a position key and its flags. -/
abbrev CueEntry := Sigma (fun _ : String => cuePoint)

/-- A non-nil `map[string]cuePoint`. -/
abbrev CueMap := AList (fun _ : String => cuePoint)

/-- The package-level variables of `main.go`. -/
structure Globals where
  state : ParseState
  trackName : String
  cues : Option CueMap
  tracksChanged : Nat
  cuesAdded : Nat
deriving DecidableEq

/-- The values of the package-level variables when `main` starts. -/
def Globals.init : Globals :=
  { state := ParseState.ROOT, trackName := "", cues := none, tracksChanged := 0, cuesAdded := 0 }

/-- One resolution of the unspecified iteration order of `range cues`. -/
structure RangeOrder where
  order : CueMap → List CueEntry
  perm : ∀ m, (order m).Perm m.entries

/-- The order in which the entries are stored. -/
def RangeOrder.stored : RangeOrder := ⟨fun m => m.entries, fun _ => List.Perm.refl _⟩

/-- The reverse of the order in which the entries are stored. -/
def RangeOrder.reversed : RangeOrder := ⟨fun m => m.entries.reverse, fun _ => List.reverse_perm _⟩

/-- What one handler call did: the tokens passed to `enc.EncodeToken`, in order,
the package-level variables when the call returned or panicked, and whether it
panicked. -/
structure Result where
  emitted : List Token
  globals : Globals
  panicked : Bool
deriving DecidableEq

/-! ## The handlers -/

/-- The function `parseAtRoot`. -/
def parseAtRoot (g : Globals) (tok : Token) : Result :=
  match tok with
  | Token.StartElement el _ =>
    if el.Local = "DJ_PLAYLISTS" then
      ⟨[tok], { g with state := ParseState.DJ_PLAYLISTS }, false⟩
    else ⟨[tok], g, false⟩
  | _ => ⟨[tok], g, false⟩

/-- The function `parseAtDJPlaylists`. -/
def parseAtDJPlaylists (g : Globals) (tok : Token) : Result :=
  match tok with
  | Token.StartElement el _ =>
    if el.Local = "COLLECTION" then
      ⟨[tok], { g with state := ParseState.COLLECTION }, false⟩
    else ⟨[tok], g, false⟩
  | Token.EndElement el =>
    if el.Local = "DJ_PLAYLISTS" then
      ⟨[tok], { g with state := ParseState.ROOT }, false⟩
    else ⟨[tok], g, false⟩
  | _ => ⟨[tok], g, false⟩

/-- The loop of `parseAtCollection` over the attributes of a track: the value
of the last attribute whose local name is `Name`, the empty string without one. -/
def scanTrackName (attrs : List Attr) : String :=
  attrs.foldl (fun name attr => if attr.Name.Local = "Name" then attr.Value else name) ""

/-- The function `parseAtCollection`. -/
def parseAtCollection (g : Globals) (tok : Token) : Result :=
  match tok with
  | Token.StartElement el attrs =>
    if el.Local = "TRACK" then
      ⟨[tok], { g with trackName := scanTrackName attrs, cues := some ∅,
                       state := ParseState.TRACK }, false⟩
    else ⟨[tok], g, false⟩
  | Token.EndElement el =>
    if el.Local = "COLLECTION" then
      ⟨[tok], { g with state := ParseState.DJ_PLAYLISTS }, false⟩
    else ⟨[tok], g, false⟩
  | _ => ⟨[tok], g, false⟩

/-- The loop of `parseAtTrack` over the attributes of a marker: the pair
`(start, num)`, each the value of the last attribute with that local name and
the empty string without one. -/
def scanMarker (attrs : List Attr) : String × String :=
  attrs.foldl (fun sn attr =>
    if attr.Name.Local = "Start" then (attr.Value, sn.2)
    else if attr.Name.Local = "Num" then (sn.1, attr.Value)
    else sn) ("", "")

/-- The block of `parseAtTrack` that records a marker in a non-nil map:
look the entry up, store the zero entry when there is none, set one flag, and
store the entry back. -/
def recordCue (m : CueMap) (start num : String) : CueMap :=
  let found := m.lookup start
  let cue : cuePoint := found.getD ⟨false, false⟩
  let m1 : CueMap := if found.isSome then m else m.insert start cue
  let cue1 : cuePoint := if num = "-1" then { cue with cue := true } else { cue with hotCue := true }
  m1.insert start cue1

/-- The start token `parseAtTrack` builds for the position `start`. -/
def synthStart (start : String) : Token :=
  Token.StartElement ⟨"", "POSITION_MARK"⟩
    [⟨⟨"", "Name"⟩, ""⟩, ⟨⟨"", "Type"⟩, "0"⟩, ⟨⟨"", "Start"⟩, start⟩, ⟨⟨"", "Num"⟩, "-1"⟩]

/-- The end token of the element `parseAtTrack` builds: `el.End()`. -/
def synthEnd : Token := Token.End ⟨"", "POSITION_MARK"⟩

/-- The variables the `range cues` loop of `parseAtTrack` reads and writes. -/
structure RangeAcc where
  emitted : List Token
  trackChanged : Bool
  tracksChanged : Nat
  cuesAdded : Nat
deriving DecidableEq

/-- One iteration of the `range cues` loop of `parseAtTrack`. -/
def rangeBody (acc : RangeAcc) (e : CueEntry) : RangeAcc :=
  if e.2.hotCue && !e.2.cue then
    { emitted := acc.emitted ++ [synthStart e.1, synthEnd],
      trackChanged := true,
      tracksChanged := if !acc.trackChanged then acc.tracksChanged + 1 else acc.tracksChanged,
      cuesAdded := acc.cuesAdded + 1 }
  else acc

/-- The entries `range cues` visits, in the order it visits them: none for the
nil map. -/
def rangeCues (ro : RangeOrder) (cues : Option CueMap) : List CueEntry :=
  match cues with
  | none => []
  | some m => ro.order m

/-- The function `parseAtTrack`. -/
def parseAtTrack (ro : RangeOrder) (g : Globals) (tok : Token) : Result :=
  match tok with
  | Token.StartElement el attrs =>
    if el.Local = "POSITION_MARK" then
      let sn := scanMarker attrs
      if sn.1 ≠ "" ∧ sn.2 ≠ "" then
        match g.cues with
        | none => ⟨[tok], g, true⟩
        | some m => ⟨[tok], { g with cues := some (recordCue m sn.1 sn.2) }, false⟩
      else ⟨[tok], g, false⟩
    else ⟨[tok], g, false⟩
  | Token.EndElement el =>
    if el.Local = "TRACK" then
      let acc := (rangeCues ro g.cues).foldl rangeBody ⟨[], false, g.tracksChanged, g.cuesAdded⟩
      ⟨acc.emitted ++ [tok],
       { g with tracksChanged := acc.tracksChanged, cuesAdded := acc.cuesAdded,
                state := ParseState.COLLECTION }, false⟩
    else ⟨[tok], g, false⟩
  | _ => ⟨[tok], g, false⟩

/-- The `switch state` of the token loop of `main`: one token, one handler. -/
def processToken (ro : RangeOrder) (g : Globals) (tok : Token) : Result :=
  match g.state with
  | ParseState.ROOT => parseAtRoot g tok
  | ParseState.DJ_PLAYLISTS => parseAtDJPlaylists g tok
  | ParseState.COLLECTION => parseAtCollection g tok
  | ParseState.TRACK => parseAtTrack ro g tok

/-- The token loop of `main` over a sequence of tokens read without error: the
token at index `i` is processed with the iteration order `ros i`, and a panic
ends the run. -/
def run (ros : Nat → RangeOrder) (g : Globals) : List Token → Result
  | [] => ⟨[], g, false⟩
  | tok :: rest =>
    let r := processToken (ros 0) g tok
    if r.panicked then r
    else
      let r1 := run (fun i => ros (i + 1)) r.globals rest
      ⟨r.emitted ++ r1.emitted, r1.globals, r1.panicked⟩

/-! ## The token loop of `main` with its read errors -/

/-- An error returned by `dec.Token()`: `io.EOF` at the clean end of the
stream, anything else being a structural read error. -/
inductive ReadError where
  | EOF
  | Syntax (msg : String)
deriving DecidableEq, Repr

/-- One result `tok, err` of `dec.Token()`. -/
structure ReadResult where
  tok : Option Token
  err : Option ReadError
deriving DecidableEq

/-- How the token loop of `main` ended. -/
inductive LoopEnd where
  | finished
  | readError
  | panicked
deriving DecidableEq, Repr

/-- What the token loop of `main` did. -/
structure LoopResult where
  emitted : List Token
  globals : Globals
  ending : LoopEnd
deriving DecidableEq

/-- The token loop of `main` over the results of the successive `dec.Token()`
calls. The loop condition `tok != nil` is tested before the body looks at
`err`. Past the last listed result the decoder is at the end of the stream and
returns `nil, io.EOF`. -/
def tokenLoop (ros : Nat → RangeOrder) (g : Globals) : List ReadResult → LoopResult
  | [] => ⟨[], g, LoopEnd.finished⟩
  | ⟨none, _⟩ :: _ => ⟨[], g, LoopEnd.finished⟩
  | ⟨some _, some _⟩ :: _ => ⟨[], g, LoopEnd.readError⟩
  | ⟨some tok, none⟩ :: rest =>
    let r := processToken (ros 0) g tok
    if r.panicked then ⟨r.emitted, r.globals, LoopEnd.panicked⟩
    else
      let l := tokenLoop (fun i => ros (i + 1)) r.globals rest
      ⟨r.emitted ++ l.emitted, l.globals, l.ending⟩

/-- How the process ends: an exit code, or a Go panic. -/
inductive ExitStatus where
  | exit (code : Nat)
  | panic
deriving DecidableEq, Repr

/-- The part of `main` from the token loop to the flush: exit code 10 from the
error branch of the loop body, 11 when `enc.Flush()` fails, 0 otherwise. -/
def mainExit (ros : Nat → RangeOrder) (src : List ReadResult) (flushFails : Bool) : ExitStatus :=
  match (tokenLoop ros Globals.init src).ending with
  | LoopEnd.readError => ExitStatus.exit 10
  | LoopEnd.panicked => ExitStatus.panic
  | LoopEnd.finished => if flushFails then ExitStatus.exit 11 else ExitStatus.exit 0

/-- The contract of `Decoder.Token`: a result carries a token or an error,
never both and never neither. -/
def DecoderResult (r : ReadResult) : Prop :=
  (r.tok = none ↔ r.err ≠ none)

/-! ## Vocabulary of the specification -/

/-- An entry with a hot cue and no plain cue: the entries that get a marker. -/
def missingCue (c : cuePoint) : Bool := c.hotCue && !c.cue

/-- The keys, in order, of the entries of a list that have a hot cue and no
plain cue. -/
def missingKeys (es : List CueEntry) : List String :=
  (es.filter (fun e => missingCue e.2)).map Sigma.fst

/-- The synthesized marker pairs for a list of positions: for each position
its start token immediately followed by its end token. -/
def synthPairs : List String → List Token
  | [] => []
  | k :: ks => synthStart k :: synthEnd :: synthPairs ks

/-- The token is an element-end token named `TRACK`. -/
def isTrackEnd : Token → Bool
  | Token.EndElement el => el.Local = "TRACK"
  | _ => false

/-- The token is an element-start token named `TRACK`. -/
def isTrackStart : Token → Bool
  | Token.StartElement el _ => el.Local = "TRACK"
  | _ => false

/-- The token is an element-start token named `POSITION_MARK`. -/
def isMarkStart : Token → Bool
  | Token.StartElement el _ => el.Local = "POSITION_MARK"
  | _ => false

/-- The token is an element-end token named `TRACK` met in Track context. -/
def closesTrack (g : Globals) (tok : Token) : Bool :=
  g.state = ParseState.TRACK && isTrackEnd tok

/-- The entry of the aggregator at a key, none for the nil map. -/
def cueAt (g : Globals) (k : String) : Option cuePoint :=
  match g.cues with
  | none => none
  | some m => m.lookup k

/-- The aggregator as a finite map, without the order in which the entries are
stored; none for the nil map. -/
def cuesOf (g : Globals) : Option (Finmap (fun _ : String => cuePoint)) :=
  g.cues.map AList.toFinmap

/-- Some entry of the aggregator has a hot cue and no plain cue. -/
def needsCue (g : Globals) : Bool :=
  match g.cues with
  | none => false
  | some m => m.entries.any (fun e => missingCue e.2)

/-- No track of the run reaches its closing `TRACK` token with an aggregator
entry that has a hot cue and no plain cue. -/
def cleanRun (ros : Nat → RangeOrder) (g : Globals) : List Token → Bool
  | [] => true
  | tok :: rest =>
    !(closesTrack g tok && needsCue g) &&
      cleanRun (fun i => ros (i + 1)) (processToken (ros 0) g tok).globals rest

/-- The transition table of the specification, section 4.1. -/
def transition : ParseState → Token → ParseState
  | ParseState.ROOT, Token.StartElement el _ =>
    if el.Local = "DJ_PLAYLISTS" then ParseState.DJ_PLAYLISTS else ParseState.ROOT
  | ParseState.DJ_PLAYLISTS, Token.StartElement el _ =>
    if el.Local = "COLLECTION" then ParseState.COLLECTION else ParseState.DJ_PLAYLISTS
  | ParseState.DJ_PLAYLISTS, Token.EndElement el =>
    if el.Local = "DJ_PLAYLISTS" then ParseState.ROOT else ParseState.DJ_PLAYLISTS
  | ParseState.COLLECTION, Token.StartElement el _ =>
    if el.Local = "TRACK" then ParseState.TRACK else ParseState.COLLECTION
  | ParseState.COLLECTION, Token.EndElement el =>
    if el.Local = "COLLECTION" then ParseState.DJ_PLAYLISTS else ParseState.COLLECTION
  | ParseState.TRACK, Token.EndElement el =>
    if el.Local = "TRACK" then ParseState.COLLECTION else ParseState.TRACK
  | s, _ => s

/-- The position and number of a marker token that `parseAtTrack` records:
a start token named `POSITION_MARK` whose scanned `Start` and `Num` values are
both non-empty. -/
def markerOf : Token → Option (String × String)
  | Token.StartElement el attrs =>
    if el.Local = "POSITION_MARK" ∧ (scanMarker attrs).1 ≠ "" ∧ (scanMarker attrs).2 ≠ "" then
      some (scanMarker attrs)
    else none
  | _ => none

/-- The attribute list carries the attribute `key` with the value `value`: some
attribute has that local name, and every attribute with that local name has
that value. -/
def HasAttr (attrs : List Attr) (key value : String) : Prop :=
  (∃ a ∈ attrs, a.Name.Local = key) ∧ ∀ a ∈ attrs, a.Name.Local = key → a.Value = value

/-- The token is a `POSITION_MARK` start token with `Start` equal to `p` and
`Num` equal to `n`. -/
def IsMarker (p n : String) (tok : Token) : Prop :=
  ∃ el attrs, tok = Token.StartElement el attrs ∧ el.Local = "POSITION_MARK" ∧
    HasAttr attrs "Start" p ∧ HasAttr attrs "Num" n

/-- The entry stored for a marker with the given `Num` over the previous entry:
the plain-cue flag is raised when `Num` is "-1", the hot-cue flag otherwise. -/
def raiseFlag (n : String) (c : cuePoint) : cuePoint :=
  if n = "-1" then { c with cue := true } else { c with hotCue := true }

/-- The output built from an input and, for each input token, the positions
whose synthesized pairs are put right before it. -/
def weave : List (List String) → List Token → List Token
  | ks :: kss, tok :: toks => synthPairs ks ++ tok :: weave kss toks
  | _, _ => []

/-- The number of positions over all the blocks. -/
def totalKeys (kss : List (List String)) : Nat := (kss.map List.length).sum

/-- The element stack after the tokens, none when an end token does not match
the innermost open element: a start token pushes its name, an end token must
find its own name on top and pops it, any other token is skipped. -/
def nesting : List XmlName → List Token → Option (List XmlName)
  | stack, [] => some stack
  | stack, Token.StartElement el _ :: rest => nesting (el :: stack) rest
  | [], Token.EndElement _ :: _ => none
  | top :: stack, Token.EndElement el :: rest => if el = top then nesting stack rest else none
  | stack, _ :: rest => nesting stack rest

/-- The start and end tokens are properly nested with matching names. -/
def WellNested (toks : List Token) : Prop := nesting [] toks = some []

/-! ## Invariants and auxiliary notions -/

/-- The map is initialised whenever the context is Track, and the empty
string is not one of its keys. -/
def TrackReady (g : Globals) : Prop :=
  g.state = ParseState.TRACK → ∃ m, g.cues = some m ∧ "" ∉ m

/-- The counters agree: no more changed tracks than added cues, and one is 0
exactly when the other is. -/
def CountersOk (g : Globals) : Prop :=
  g.tracksChanged ≤ g.cuesAdded ∧ (g.tracksChanged = 0 ↔ g.cuesAdded = 0)

/-- The state with both counters raised by the given amounts. -/
def addCounters (a b : Nat) (g : Globals) : Globals :=
  { g with tracksChanged := g.tracksChanged + a, cuesAdded := g.cuesAdded + b }

/-- Every entry of the first map is in the second, with no flag lowered. -/
def CueLe (m m1 : CueMap) : Prop :=
  ∀ k c, AList.lookup k m = some c →
    ∃ c1, AList.lookup k m1 = some c1 ∧ (c.cue = true → c1.cue = true) ∧
      (c.hotCue = true → c1.hotCue = true)

/-- The map after the plain-cue markers of the given positions are recorded,
in order. -/
def markAll (m : CueMap) (ks : List String) : CueMap :=
  ks.foldl (fun acc k => recordCue acc k "-1") m

/-- The effect on `cues` of one token other than a track end met in Track
context: a recorded marker is stored in an initialised map, anything else, and
anything met with the nil map, leaves `cues` as it was. -/
def applyMark (cues : Option CueMap) (tok : Token) : Option CueMap :=
  match markerOf tok, cues with
  | some sn, some m => some (recordCue m sn.1 sn.2)
  | _, _ => cues

/-- The second run, reading the output of the first, is in step with it: same
context, counters still at 0, and inside a track the same initialised
aggregator, without the empty key. -/
def Replays (g1 g2 : Globals) : Prop :=
  g1.state = g2.state ∧ g2.tracksChanged = 0 ∧ g2.cuesAdded = 0 ∧
    (g1.state = ParseState.TRACK → ∃ m, g1.cues = some m ∧ g2.cues = some m ∧ "" ∉ m)

/-! ## Example documents and states -/

/-- The document of the end-to-end scenario. -/
def scenarioInput : List Token :=
  [Token.StartElement ⟨"", "DJ_PLAYLISTS"⟩ [],
   Token.StartElement ⟨"", "COLLECTION"⟩ [],
   Token.StartElement ⟨"", "TRACK"⟩ [⟨⟨"", "Name"⟩, "song"⟩],
   Token.StartElement ⟨"", "POSITION_MARK"⟩ [⟨⟨"", "Start"⟩, "1.0"⟩, ⟨⟨"", "Num"⟩, "0"⟩],
   Token.EndElement ⟨"", "POSITION_MARK"⟩,
   Token.EndElement ⟨"", "TRACK"⟩,
   Token.EndElement ⟨"", "COLLECTION"⟩,
   Token.EndElement ⟨"", "DJ_PLAYLISTS"⟩]

/-- The output the end-to-end scenario asks for. -/
def scenarioOutput : List Token :=
  [Token.StartElement ⟨"", "DJ_PLAYLISTS"⟩ [],
   Token.StartElement ⟨"", "COLLECTION"⟩ [],
   Token.StartElement ⟨"", "TRACK"⟩ [⟨⟨"", "Name"⟩, "song"⟩],
   Token.StartElement ⟨"", "POSITION_MARK"⟩ [⟨⟨"", "Start"⟩, "1.0"⟩, ⟨⟨"", "Num"⟩, "0"⟩],
   Token.EndElement ⟨"", "POSITION_MARK"⟩,
   Token.StartElement ⟨"", "POSITION_MARK"⟩
     [⟨⟨"", "Name"⟩, ""⟩, ⟨⟨"", "Type"⟩, "0"⟩, ⟨⟨"", "Start"⟩, "1.0"⟩, ⟨⟨"", "Num"⟩, "-1"⟩],
   Token.EndElement ⟨"", "POSITION_MARK"⟩,
   Token.EndElement ⟨"", "TRACK"⟩,
   Token.EndElement ⟨"", "COLLECTION"⟩,
   Token.EndElement ⟨"", "DJ_PLAYLISTS"⟩]

/-- A document with one track whose position "1.0" has both a hot cue and a
plain cue. -/
def cleanInput : List Token :=
  [Token.StartElement ⟨"", "DJ_PLAYLISTS"⟩ [],
   Token.StartElement ⟨"", "COLLECTION"⟩ [],
   Token.StartElement ⟨"", "TRACK"⟩ [⟨⟨"", "Name"⟩, "song"⟩],
   Token.StartElement ⟨"", "POSITION_MARK"⟩ [⟨⟨"", "Start"⟩, "1.0"⟩, ⟨⟨"", "Num"⟩, "0"⟩],
   Token.EndElement ⟨"", "POSITION_MARK"⟩,
   Token.StartElement ⟨"", "POSITION_MARK"⟩ [⟨⟨"", "Start"⟩, "1.0"⟩, ⟨⟨"", "Num"⟩, "-1"⟩],
   Token.EndElement ⟨"", "POSITION_MARK"⟩,
   Token.CharData "\n",
   Token.EndElement ⟨"", "TRACK"⟩,
   Token.EndElement ⟨"", "COLLECTION"⟩,
   Token.EndElement ⟨"", "DJ_PLAYLISTS"⟩]

/-- A Collection-context state left by a track with a pending hot cue at
"7.5", with counters 3 and 4. -/
def leftoverA : Globals :=
  ⟨ParseState.COLLECTION, "old", some (recordCue ∅ "7.5" "2"), 3, 4⟩

/-- A Collection-context state before any track: nil map, counters 0. -/
def leftoverB : Globals := ⟨ParseState.COLLECTION, "", none, 0, 0⟩

/-- A track with a hot cue at "7.5" and its end. -/
def isolationInput : List Token :=
  [Token.StartElement ⟨"", "POSITION_MARK"⟩ [⟨⟨"", "Start"⟩, "7.5"⟩, ⟨⟨"", "Num"⟩, "1"⟩],
   Token.EndElement ⟨"", "POSITION_MARK"⟩,
   Token.EndElement ⟨"", "TRACK"⟩]

/-- The body of a track with a hot cue and a plain cue at "8.0". -/
def pairedBody : List Token :=
  [Token.StartElement ⟨"", "POSITION_MARK"⟩ [⟨⟨"", "Start"⟩, "8.0"⟩, ⟨⟨"", "Num"⟩, "3"⟩],
   Token.EndElement ⟨"", "POSITION_MARK"⟩,
   Token.CharData " ",
   Token.StartElement ⟨"", "POSITION_MARK"⟩ [⟨⟨"", "Start"⟩, "8.0"⟩, ⟨⟨"", "Num"⟩, "-1"⟩],
   Token.EndElement ⟨"", "POSITION_MARK"⟩]

/-- A library with one track holding a hot cue at "1.0", followed by the start
of a playlist that refers to a track. -/
def playlistInput : List Token :=
  [Token.StartElement ⟨"", "DJ_PLAYLISTS"⟩ [],
   Token.StartElement ⟨"", "COLLECTION"⟩ [],
   Token.StartElement ⟨"", "TRACK"⟩ [⟨⟨"", "Name"⟩, "song"⟩],
   Token.StartElement ⟨"", "POSITION_MARK"⟩ [⟨⟨"", "Start"⟩, "1.0"⟩, ⟨⟨"", "Num"⟩, "0"⟩],
   Token.EndElement ⟨"", "POSITION_MARK"⟩,
   Token.EndElement ⟨"", "TRACK"⟩,
   Token.EndElement ⟨"", "COLLECTION"⟩,
   Token.StartElement ⟨"", "PLAYLISTS"⟩ [],
   Token.StartElement ⟨"", "NODE"⟩ [⟨⟨"", "Name"⟩, "ROOT"⟩]]

/-- A library whose open track holds one `POSITION_MARK` with a `Start`
attribute and no `Num` attribute. -/
def numlessInput : List Token :=
  [Token.StartElement ⟨"", "DJ_PLAYLISTS"⟩ [],
   Token.StartElement ⟨"", "COLLECTION"⟩ [],
   Token.StartElement ⟨"", "TRACK"⟩ [⟨⟨"", "Name"⟩, "song"⟩],
   Token.StartElement ⟨"", "POSITION_MARK"⟩ [⟨⟨"", "Start"⟩, "3.0"⟩]]

/-! ## The `range cues` loop -/

theorem synthPairs_append (xs ys : List String) :
    synthPairs (xs ++ ys) = synthPairs xs ++ synthPairs ys := by
  induction xs with
  | nil => rfl
  | cons x xs ih => simp [synthPairs, ih]

theorem synthPairs_length (ks : List String) : (synthPairs ks).length = 2 * ks.length := by
  induction ks with
  | nil => rfl
  | cons k ks ih => simp [synthPairs, ih]; omega

theorem missingKeys_cons (e : CueEntry) (es : List CueEntry) :
    missingKeys (e :: es) = if missingCue e.2 then e.1 :: missingKeys es else missingKeys es := by
  unfold missingKeys
  by_cases h : missingCue e.2 = true <;> simp [List.filter_cons, h]

/-- The loop in closed form: it appends the marker pairs of the entries with a
hot cue and no plain cue, counts them, and counts the track once. -/
theorem foldl_rangeBody (es : List CueEntry) (acc : RangeAcc) :
    es.foldl rangeBody acc =
      { emitted := acc.emitted ++ synthPairs (missingKeys es),
        trackChanged := acc.trackChanged || !(missingKeys es).isEmpty,
        tracksChanged := acc.tracksChanged +
          (if !acc.trackChanged && !(missingKeys es).isEmpty then 1 else 0),
        cuesAdded := acc.cuesAdded + (missingKeys es).length } := by
  induction es generalizing acc with
  | nil => simp [missingKeys, synthPairs]
  | cons e es ih =>
    rw [List.foldl_cons, ih, missingKeys_cons]
    by_cases h : missingCue e.2 = true
    · have h2 : (e.2.hotCue && !e.2.cue) = true := h
      cases hc : acc.trackChanged <;>
        simp [rangeBody, h, h2, hc, synthPairs, Nat.add_assoc, Nat.add_comm 1]
    · have h2 : ¬ (e.2.hotCue && !e.2.cue) = true := h
      simp [rangeBody, h, h2]

/-! ## One step at the end of a track -/

theorem closesTrack_iff (g : Globals) (tok : Token) :
    closesTrack g tok = true ↔
      g.state = ParseState.TRACK ∧ ∃ el, tok = Token.EndElement el ∧ el.Local = "TRACK" := by
  cases tok <;> simp [closesTrack, isTrackEnd]

/-- The track-end step in closed form. -/
theorem processToken_closes (ro : RangeOrder) (g : Globals) (tok : Token)
    (h : closesTrack g tok = true) :
    processToken ro g tok =
      ⟨synthPairs (missingKeys (rangeCues ro g.cues)) ++ [tok],
       { g with
         tracksChanged := g.tracksChanged +
           (if (missingKeys (rangeCues ro g.cues)).isEmpty then 0 else 1),
         cuesAdded := g.cuesAdded + (missingKeys (rangeCues ro g.cues)).length,
         state := ParseState.COLLECTION }, false⟩ := by
  obtain ⟨hs, el, rfl, hl⟩ := (closesTrack_iff g tok).1 h
  simp only [processToken, hs, parseAtTrack, hl, if_true, foldl_rangeBody]
  cases hk : (missingKeys (rangeCues ro g.cues)).isEmpty <;> simp [hk]

theorem processToken_emitted_of_not_closes (ro : RangeOrder) (g : Globals) (tok : Token)
    (h : closesTrack g tok = false) : (processToken ro g tok).emitted = [tok] := by
  rcases g with ⟨st, tn, cues, tc, ca⟩
  cases st <;> cases tok <;>
    simp [processToken, parseAtRoot, parseAtDJPlaylists, parseAtCollection, parseAtTrack,
      closesTrack, isTrackEnd] at h ⊢ <;>
    (try split_ifs) <;> (try simp_all) <;> (try (cases cues <;> simp))



theorem processToken_counters_of_not_closes (ro : RangeOrder) (g : Globals) (tok : Token)
    (h : closesTrack g tok = false) :
    (processToken ro g tok).globals.tracksChanged = g.tracksChanged ∧
      (processToken ro g tok).globals.cuesAdded = g.cuesAdded := by
  rcases g with ⟨st, tn, cues, tc, ca⟩
  cases st <;> cases tok <;>
    simp [processToken, parseAtRoot, parseAtDJPlaylists, parseAtCollection, parseAtTrack,
      closesTrack, isTrackEnd] at h ⊢ <;>
    (try split_ifs) <;> (try simp_all) <;> (try (cases cues <;> simp))

/-! ## Recording a marker -/

theorem mem_recordCue (m : CueMap) (s n k : String) :
    k ∈ recordCue m s n ↔ k = s ∨ k ∈ m := by
  unfold recordCue
  cases h : AList.lookup s m with
  | none => simp [AList.mem_insert]
  | some c => simp [AList.mem_insert]

theorem lookup_recordCue_ne (m : CueMap) (s n k : String) (h : k ≠ s) :
    AList.lookup k (recordCue m s n) = AList.lookup k m := by
  unfold recordCue
  cases hl : AList.lookup s m with
  | none => simp [AList.lookup_insert_ne h]
  | some c => simp [AList.lookup_insert_ne h]

theorem lookup_recordCue_self (m : CueMap) (s n : String) :
    AList.lookup s (recordCue m s n) =
      some (if n = "-1" then { (AList.lookup s m).getD ⟨false, false⟩ with cue := true }
            else { (AList.lookup s m).getD ⟨false, false⟩ with hotCue := true }) := by
  unfold recordCue
  simp [AList.lookup_insert]

/-! ## One step, by context -/

/-- A step in Track context on a token other than the track end: a recorded
marker updates the map (or panics on the nil map), any other token changes
nothing; the token is emitted in every case. -/
theorem processToken_track (ro : RangeOrder) (g : Globals) (tok : Token)
    (hs : g.state = ParseState.TRACK) (he : isTrackEnd tok = false) :
    processToken ro g tok =
      match markerOf tok with
      | none => ⟨[tok], g, false⟩
      | some sn =>
        match g.cues with
        | none => ⟨[tok], g, true⟩
        | some m => ⟨[tok], { g with cues := some (recordCue m sn.1 sn.2) }, false⟩ := by
  cases tok with
  | StartElement el attrs =>
    simp only [processToken, hs, parseAtTrack, markerOf]
    by_cases h1 : el.Local = "POSITION_MARK"
    · by_cases h2 : (scanMarker attrs).1 ≠ "" ∧ (scanMarker attrs).2 ≠ ""
      · simp only [h1, if_true]
        rw [if_pos h2, if_pos ⟨trivial, h2⟩]
      · simp only [h1, if_true]
        rw [if_neg h2, if_neg (fun h => h2 h.2)]
    · simp only [h1, if_false, false_and]
  | EndElement el =>
    have : ¬ el.Local = "TRACK" := by simpa [isTrackEnd] using he
    simp [processToken, hs, parseAtTrack, markerOf, this]
  | _ => simp [processToken, hs, parseAtTrack, markerOf]

/-- A step outside Track context: the token is emitted, nothing panics, the
counters stay, and Track context is entered with an empty map only. -/
theorem processToken_outside (ro : RangeOrder) (g : Globals) (tok : Token)
    (hs : g.state ≠ ParseState.TRACK) :
    (processToken ro g tok).emitted = [tok] ∧ (processToken ro g tok).panicked = false ∧
      (processToken ro g tok).globals.tracksChanged = g.tracksChanged ∧
      (processToken ro g tok).globals.cuesAdded = g.cuesAdded ∧
      ((processToken ro g tok).globals.state = ParseState.TRACK →
        (processToken ro g tok).globals.cues = some ∅) := by
  rcases g with ⟨st, tn, cues, tc, ca⟩
  cases st <;> cases tok <;>
    simp [processToken, parseAtRoot, parseAtDJPlaylists, parseAtCollection] at hs ⊢ <;>
    split_ifs <;> simp

/-! ## Panics -/

theorem processToken_not_panicked (ro : RangeOrder) (g : Globals) (tok : Token)
    (h : TrackReady g) : (processToken ro g tok).panicked = false := by
  by_cases hs : g.state = ParseState.TRACK
  · obtain ⟨m, hm, _⟩ := h hs
    cases he : isTrackEnd tok with
    | true => rw [processToken_closes ro g tok (by simp [closesTrack, hs, he])]
    | false =>
      rw [processToken_track ro g tok hs he]
      cases markerOf tok <;> simp [hm]
  · exact (processToken_outside ro g tok hs).2.1

theorem processToken_trackReady (ro : RangeOrder) (g : Globals) (tok : Token)
    (h : TrackReady g) : TrackReady (processToken ro g tok).globals := by
  by_cases hs : g.state = ParseState.TRACK
  · obtain ⟨m, hm, hk⟩ := h hs
    cases he : isTrackEnd tok with
    | true =>
      rw [processToken_closes ro g tok (by simp [closesTrack, hs, he])]
      intro hc
      simp at hc
    | false =>
      rw [processToken_track ro g tok hs he]
      cases hmk : markerOf tok with
      | none => exact h
      | some sn =>
        simp only [hm]
        intro _
        refine ⟨_, rfl, ?_⟩
        rw [mem_recordCue]
        rintro (h1 | h1)
        · cases tok <;> simp [markerOf] at hmk
          obtain ⟨⟨_, h2, _⟩, rfl⟩ := hmk
          exact h2 h1.symm
        · exact hk h1
  · intro hc
    refine ⟨∅, (processToken_outside ro g tok hs).2.2.2.2 hc, ?_⟩
    exact AList.not_mem_empty _

/-! ## Scanning the attributes of a marker -/

/-- One iteration of the attribute loop of `parseAtTrack`. -/
theorem scanMarker_snoc (attrs : List Attr) (a : Attr) :
    scanMarker (attrs ++ [a]) =
      if a.Name.Local = "Start" then (a.Value, (scanMarker attrs).2)
      else if a.Name.Local = "Num" then ((scanMarker attrs).1, a.Value)
      else scanMarker attrs := by
  simp [scanMarker, List.foldl_append]

theorem scanMarker_fst_of_no_start (attrs : List Attr)
    (h : ∀ a ∈ attrs, a.Name.Local ≠ "Start") : (scanMarker attrs).1 = "" := by
  induction attrs using List.reverseRecOn with
  | nil => rfl
  | append_singleton l a ih =>
    have ha : a.Name.Local ≠ "Start" := h a (by simp)
    have hl : (scanMarker l).1 = "" := ih (fun b hb => h b (by simp [hb]))
    rw [scanMarker_snoc, if_neg ha]
    split_ifs <;> simp [hl]

theorem scanMarker_snd_of_no_num (attrs : List Attr)
    (h : ∀ a ∈ attrs, a.Name.Local ≠ "Num") : (scanMarker attrs).2 = "" := by
  induction attrs using List.reverseRecOn with
  | nil => rfl
  | append_singleton l a ih =>
    have ha : a.Name.Local ≠ "Num" := h a (by simp)
    have hl : (scanMarker l).2 = "" := ih (fun b hb => h b (by simp [hb]))
    rw [scanMarker_snoc, if_neg ha]
    split_ifs <;> simp [hl]

theorem markerOf_eq_none_of_missing (el : XmlName) (attrs : List Attr)
    (h : (∀ a ∈ attrs, a.Name.Local ≠ "Start") ∨ (∀ a ∈ attrs, a.Name.Local ≠ "Num")) :
    markerOf (Token.StartElement el attrs) = none := by
  unfold markerOf
  rcases h with h | h
  · simp [scanMarker_fst_of_no_start attrs h]
  · simp [scanMarker_snd_of_no_num attrs h]

/-! ## Malformed markers, the transition table and the forwarding rule -/

/-- C6. Malformed-marker passthrough: in every state, a `POSITION_MARK` start
token without a `Start` attribute or without a `Num` attribute is emitted
alone and unchanged, nothing panics, and every package-level variable (the
aggregator, the context, the track name and both counters) keeps its value. -/
theorem malformed_marker_passthrough (ro : RangeOrder) (g : Globals) (el : XmlName)
    (attrs : List Attr) (hname : el.Local = "POSITION_MARK")
    (hmissing : (∀ a ∈ attrs, a.Name.Local ≠ "Start") ∨ (∀ a ∈ attrs, a.Name.Local ≠ "Num")) :
    processToken ro g (Token.StartElement el attrs) =
      ⟨[Token.StartElement el attrs], g, false⟩ := by
  by_cases hs : g.state = ParseState.TRACK
  · rw [processToken_track ro g (Token.StartElement el attrs) hs rfl, markerOf_eq_none_of_missing el attrs hmissing]
  · have hne : el.Local ≠ "DJ_PLAYLISTS" ∧ el.Local ≠ "COLLECTION" ∧ el.Local ≠ "TRACK" := by
      rw [hname]; decide
    rcases g with ⟨st, tn, cues, tc, ca⟩
    cases st <;>
      simp [processToken, parseAtRoot, parseAtDJPlaylists, parseAtCollection, hne] at hs ⊢

/-- A marker without a `Num` attribute met in a track that already holds a
hot cue: the token is passed through and the state is untouched. -/
theorem malformed_marker_passthrough_witness :
    (⟨"", "POSITION_MARK"⟩ : XmlName).Local = "POSITION_MARK" ∧
    ((∀ a ∈ [(⟨⟨"", "Start"⟩, "12.0"⟩ : Attr)], a.Name.Local ≠ "Start") ∨
      (∀ a ∈ [(⟨⟨"", "Start"⟩, "12.0"⟩ : Attr)], a.Name.Local ≠ "Num")) ∧
    processToken RangeOrder.stored
        ⟨ParseState.TRACK, "t", some (recordCue ∅ "12.0" "5"), 0, 0⟩
        (Token.StartElement ⟨"", "POSITION_MARK"⟩ [⟨⟨"", "Start"⟩, "12.0"⟩]) =
      ⟨[Token.StartElement ⟨"", "POSITION_MARK"⟩ [⟨⟨"", "Start"⟩, "12.0"⟩]],
       ⟨ParseState.TRACK, "t", some (recordCue ∅ "12.0" "5"), 0, 0⟩, false⟩ :=
  ⟨rfl, Or.inr (by decide),
    malformed_marker_passthrough RangeOrder.stored _ _ _ rfl (Or.inr (by decide))⟩

/-- The context after a step, whatever the handler, is the one of the table. -/
theorem processToken_state (ro : RangeOrder) (g : Globals) (tok : Token) :
    (processToken ro g tok).globals.state = transition g.state tok := by
  rcases g with ⟨st, tn, cues, tc, ca⟩
  cases st <;> cases tok <;>
    simp [processToken, parseAtRoot, parseAtDJPlaylists, parseAtCollection, parseAtTrack,
      transition] <;>
    (try split_ifs) <;> (try simp) <;> (try (cases cues <;> simp))

/-- C9. Transition table: in every state and for every token, the context
after the step is the one the table of section 4.1 gives. -/
theorem context_follows_transition_table (ro : RangeOrder) (g : Globals) (tok : Token) :
    (processToken ro g tok).globals.state = transition g.state tok :=
  processToken_state ro g tok

/-- C10. Forwarding rule: in every state the tokens emitted for a token end
with that token; they are that token alone unless the context is Track and the
token is the end of a `TRACK` element; outside Track context the step
emits the token alone, never panics and leaves the aggregator and the counters
as they were unless it opens a track. -/
theorem forwarding_rule (ro : RangeOrder) (g : Globals) (tok : Token) :
    (processToken ro g tok).emitted.getLast? = some tok ∧
    (¬ (g.state = ParseState.TRACK ∧ isTrackEnd tok = true) →
      (processToken ro g tok).emitted = [tok]) ∧
    (g.state ≠ ParseState.TRACK →
      (processToken ro g tok).emitted = [tok] ∧ (processToken ro g tok).panicked = false) := by
  have key : closesTrack g tok = false → (processToken ro g tok).emitted = [tok] :=
    processToken_emitted_of_not_closes ro g tok
  refine ⟨?_, ?_, ?_⟩
  · cases h : closesTrack g tok with
    | false => simp [key h]
    | true => simp [processToken_closes ro g tok h]
  · intro h
    apply key
    cases hc : closesTrack g tok with
    | false => rfl
    | true => exact absurd (by simpa [closesTrack] using hc) h
  · intro h
    exact ⟨(processToken_outside ro g tok h).1, (processToken_outside ro g tok h).2.1⟩

theorem order_singleton (ro : RangeOrder) (m : CueMap) (e : CueEntry) (h : m.entries = [e]) :
    ro.order m = [e] := by
  have := ro.perm m
  rw [h] at this
  exact List.perm_singleton.1 this

theorem scenario_run (ros : Nat → RangeOrder) :
    run ros Globals.init scenarioInput =
      ⟨scenarioOutput, ⟨ParseState.ROOT, "song", some (recordCue ∅ "1.0" "0"), 1, 1⟩, false⟩ := by
  have h := order_singleton (ros 5) (recordCue ∅ "1.0" "0") ⟨"1.0", ⟨true, false⟩⟩ (by decide)
  simp [run, scenarioInput, processToken, parseAtRoot, parseAtDJPlaylists, parseAtCollection, parseAtTrack, Globals.init, rangeCues, scanMarker, scanTrackName, h, rangeBody, scenarioOutput, synthStart, synthEnd, Token.End]

/-! ## The positions that get a marker -/

theorem mem_missingKeys (es : List CueEntry) (k : String) :
    k ∈ missingKeys es ↔ ∃ c, (⟨k, c⟩ : CueEntry) ∈ es ∧ missingCue c = true := by
  unfold missingKeys
  simp only [List.mem_map, List.mem_filter]
  constructor
  · rintro ⟨⟨k1, c⟩, ⟨hmem, hmiss⟩, rfl⟩
    exact ⟨c, hmem, hmiss⟩
  · rintro ⟨c, hmem, hmiss⟩
    exact ⟨⟨k, c⟩, ⟨hmem, hmiss⟩, rfl⟩

theorem mem_missingKeys_rangeCues (ro : RangeOrder) (g : Globals) (k : String) :
    k ∈ missingKeys (rangeCues ro g.cues) ↔
      ∃ c, cueAt g k = some c ∧ c.hotCue = true ∧ c.cue = false := by
  rw [mem_missingKeys]
  unfold rangeCues cueAt
  cases g.cues with
  | none => simp
  | some m =>
    simp only [(ro.perm m).mem_iff, ← AList.mem_lookup_iff, Option.mem_def, missingCue,
      Bool.and_eq_true, Bool.not_eq_true']

theorem missingKeys_rangeCues_nodup (ro : RangeOrder) (cues : Option CueMap) :
    (missingKeys (rangeCues ro cues)).Nodup := by
  unfold rangeCues
  cases cues with
  | none => simp [missingKeys]
  | some m =>
    have hk : ((ro.order m).map Sigma.fst).Nodup :=
      ((ro.perm m).map Sigma.fst).nodup_iff.2 m.keys_nodup
    exact hk.sublist (List.Sublist.map _ (List.filter_sublist _))

/-- C3. Insertion correctness: in Track context the end token of a `TRACK`
element emits, for the positions `ks` whose aggregator entry has a hot cue and
no plain cue, each exactly once, the pair made of the start token
`POSITION_MARK` with attributes Name "", Type "0", Start the position, Num "-1"
and of the end token `POSITION_MARK`, and then the `TRACK` end token itself,
and nothing else. -/
theorem insertion_correctness (ro : RangeOrder) (g : Globals) (el : XmlName)
    (hs : g.state = ParseState.TRACK) (hl : el.Local = "TRACK") :
    ∃ ks : List String,
      ks.Nodup ∧
      (∀ k, k ∈ ks ↔ ∃ c, cueAt g k = some c ∧ c.hotCue = true ∧ c.cue = false) ∧
      (processToken ro g (Token.EndElement el)).emitted = synthPairs ks ++ [Token.EndElement el] ∧
      (∀ k, synthStart k = Token.StartElement ⟨"", "POSITION_MARK"⟩
        [⟨⟨"", "Name"⟩, ""⟩, ⟨⟨"", "Type"⟩, "0"⟩, ⟨⟨"", "Start"⟩, k⟩, ⟨⟨"", "Num"⟩, "-1"⟩]) ∧
      synthEnd = Token.EndElement ⟨"", "POSITION_MARK"⟩ := by
  refine ⟨missingKeys (rangeCues ro g.cues), missingKeys_rangeCues_nodup ro g.cues,
    mem_missingKeys_rangeCues ro g, ?_, fun _ => rfl, rfl⟩
  rw [processToken_closes ro g _ (by simp [closesTrack, isTrackEnd, hs, hl])]

/-- A track whose only marker is Start "12.0", Num "5": its end emits exactly
one marker pair, for "12.0", before the `TRACK` end token. -/
theorem insertion_correctness_witness :
    (⟨ParseState.TRACK, "t", some (recordCue ∅ "12.0" "5"), 0, 0⟩ : Globals).state =
        ParseState.TRACK ∧
    (⟨"", "TRACK"⟩ : XmlName).Local = "TRACK" ∧
    (∃ ks : List String,
      ks.Nodup ∧
      (∀ k, k ∈ ks ↔ ∃ c, cueAt ⟨ParseState.TRACK, "t", some (recordCue ∅ "12.0" "5"), 0, 0⟩ k
        = some c ∧ c.hotCue = true ∧ c.cue = false) ∧
      (processToken RangeOrder.reversed
          ⟨ParseState.TRACK, "t", some (recordCue ∅ "12.0" "5"), 0, 0⟩
          (Token.EndElement ⟨"", "TRACK"⟩)).emitted =
        synthPairs ks ++ [Token.EndElement ⟨"", "TRACK"⟩] ∧
      (∀ k, synthStart k = Token.StartElement ⟨"", "POSITION_MARK"⟩
        [⟨⟨"", "Name"⟩, ""⟩, ⟨⟨"", "Type"⟩, "0"⟩, ⟨⟨"", "Start"⟩, k⟩, ⟨⟨"", "Num"⟩, "-1"⟩]) ∧
      synthEnd = Token.EndElement ⟨"", "POSITION_MARK"⟩) ∧
    (processToken RangeOrder.reversed
        ⟨ParseState.TRACK, "t", some (recordCue ∅ "12.0" "5"), 0, 0⟩
        (Token.EndElement ⟨"", "TRACK"⟩)).emitted =
      [Token.StartElement ⟨"", "POSITION_MARK"⟩
         [⟨⟨"", "Name"⟩, ""⟩, ⟨⟨"", "Type"⟩, "0"⟩, ⟨⟨"", "Start"⟩, "12.0"⟩, ⟨⟨"", "Num"⟩, "-1"⟩],
       Token.EndElement ⟨"", "POSITION_MARK"⟩, Token.EndElement ⟨"", "TRACK"⟩] :=
  ⟨rfl, rfl, insertion_correctness RangeOrder.reversed _ _ rfl rfl, by decide⟩

/-- C7. Counter accounting: the end token of a `TRACK` element in Track context
adds to `cuesAdded` the number of marker pairs it emits and adds to
`tracksChanged` one when that number is at least one and nothing otherwise;
every other step leaves both counters as they were; and the scenario document
(one track whose only marker is Start "1.0", Num "0") ends, whatever the
iteration order, with both counters at 1 and the marker Name "", Type "0",
Start "1.0", Num "-1" appended to the track. -/
theorem counter_accounting :
    (∀ (ro : RangeOrder) (g : Globals) (tok : Token),
      ((g.state = ParseState.TRACK ∧ isTrackEnd tok = true) →
        ∃ ks : List String,
          (processToken ro g tok).emitted = synthPairs ks ++ [tok] ∧
          (processToken ro g tok).globals.cuesAdded = g.cuesAdded + ks.length ∧
          (processToken ro g tok).globals.tracksChanged =
            g.tracksChanged + (if 1 ≤ ks.length then 1 else 0)) ∧
      (¬ (g.state = ParseState.TRACK ∧ isTrackEnd tok = true) →
        (processToken ro g tok).globals.cuesAdded = g.cuesAdded ∧
        (processToken ro g tok).globals.tracksChanged = g.tracksChanged)) ∧
    (∀ ros : Nat → RangeOrder,
      run ros Globals.init scenarioInput =
        ⟨scenarioOutput, ⟨ParseState.ROOT, "song", some (recordCue ∅ "1.0" "0"), 1, 1⟩, false⟩) := by
  refine ⟨fun ro g tok => ⟨?_, ?_⟩, scenario_run⟩
  · rintro ⟨hs, he⟩
    refine ⟨missingKeys (rangeCues ro g.cues), ?_⟩
    rw [processToken_closes ro g tok (by simp [closesTrack, hs, he])]
    refine ⟨rfl, rfl, ?_⟩
    cases missingKeys (rangeCues ro g.cues) <;> simp
  · intro h
    have hc : closesTrack g tok = false := by
      cases hc : closesTrack g tok with
      | false => rfl
      | true => exact absurd (by simpa [closesTrack] using hc) h
    exact ⟨(processToken_counters_of_not_closes ro g tok hc).2,
      (processToken_counters_of_not_closes ro g tok hc).1⟩

/-! ## Read errors -/

/-- Under the contract of `Decoder.Token` (an error comes with a nil token) the
error branch of the loop body is never taken: the loop never ends in a read
error. -/
theorem tokenLoop_ending_ne_readError (src : List ReadResult)
    (h : ∀ r ∈ src, DecoderResult r) (ros : Nat → RangeOrder) (g : Globals) :
    (tokenLoop ros g src).ending ≠ LoopEnd.readError := by
  induction src generalizing ros g with
  | nil => simp [tokenLoop]
  | cons r rest ih =>
    have hr : DecoderResult r := h r (by simp)
    have hrest : ∀ r ∈ rest, DecoderResult r := fun x hx => h x (by simp [hx])
    rcases r with ⟨tok, err⟩
    cases tok with
    | none => simp [tokenLoop]
    | some tok =>
      cases err with
      | some e => simp [DecoderResult] at hr
      | none =>
        simp only [tokenLoop]
        split_ifs
        · simp
        · exact ih hrest _ _

/-- C8, at the failing input. A start token followed by a syntax error: the loop
stops on the nil token before looking at the error, and the run ends with exit
code 0, not 10. -/
theorem read_error_exits_zero :
    mainExit (fun _ => RangeOrder.stored)
      [⟨some (Token.StartElement ⟨"", "DJ_PLAYLISTS"⟩ []), none⟩,
       ⟨none, some (ReadError.Syntax "unexpected EOF")⟩] false = ExitStatus.exit 0 := by
  decide

/-! ## Runs -/

theorem run_cons (ros : Nat → RangeOrder) (g : Globals) (tok : Token) (rest : List Token) :
    run ros g (tok :: rest) =
      if (processToken (ros 0) g tok).panicked then processToken (ros 0) g tok
      else
        ⟨(processToken (ros 0) g tok).emitted ++
            (run (fun i => ros (i + 1)) (processToken (ros 0) g tok).globals rest).emitted,
          (run (fun i => ros (i + 1)) (processToken (ros 0) g tok).globals rest).globals,
          (run (fun i => ros (i + 1)) (processToken (ros 0) g tok).globals rest).panicked⟩ := rfl

theorem run_append (a b : List Token) (ros : Nat → RangeOrder) (g : Globals) :
    run ros g (a ++ b) =
      if (run ros g a).panicked then run ros g a
      else
        ⟨(run ros g a).emitted ++ (run (fun i => ros (i + a.length)) (run ros g a).globals b).emitted,
          (run (fun i => ros (i + a.length)) (run ros g a).globals b).globals,
          (run (fun i => ros (i + a.length)) (run ros g a).globals b).panicked⟩ := by
  induction a generalizing ros g with
  | nil => simp [run]
  | cons tok rest ih =>
    rw [List.cons_append, run_cons, run_cons]
    by_cases hp : (processToken (ros 0) g tok).panicked = true
    · simp [hp]
    · simp only [hp, if_false, Bool.false_eq_true]
      rw [ih]
      by_cases hq : (run (fun i => ros (i + 1)) (processToken (ros 0) g tok).globals rest).panicked
          = true
      · simp [hq]
      · simp only [hq, if_false, Bool.false_eq_true, List.append_assoc, List.length_cons]
        rfl

theorem missingKeys_eq_nil_of_not_needsCue (ro : RangeOrder) (g : Globals)
    (h : needsCue g = false) : missingKeys (rangeCues ro g.cues) = [] := by
  rw [List.eq_nil_iff_forall_not_mem]
  intro k hk
  rw [mem_missingKeys] at hk
  obtain ⟨c, hmem, hmiss⟩ := hk
  unfold needsCue at h
  unfold rangeCues at hmem
  cases hc : g.cues with
  | none => simp [hc] at hmem
  | some m =>
    simp only [hc] at h hmem
    have hm : (⟨k, c⟩ : CueEntry) ∈ m.entries := (ro.perm m).mem_iff.1 hmem
    have : m.entries.any (fun e => missingCue e.2) = true :=
      List.any_eq_true.2 ⟨_, hm, hmiss⟩
    rw [h] at this
    cases this

/-- A run that never closes a track in need of a cue is the identity on the
tokens and leaves the counters alone. -/
theorem run_clean (toks : List Token) (ros : Nat → RangeOrder) (g : Globals)
    (hr : TrackReady g) (hc : cleanRun ros g toks = true) :
    (run ros g toks).emitted = toks ∧ (run ros g toks).panicked = false ∧
      (run ros g toks).globals.tracksChanged = g.tracksChanged ∧
      (run ros g toks).globals.cuesAdded = g.cuesAdded := by
  induction toks generalizing ros g with
  | nil => simp [run]
  | cons tok rest ih =>
    simp only [cleanRun, Bool.and_eq_true, Bool.not_eq_true'] at hc
    obtain ⟨hhere, hrest⟩ := hc
    have hnp := processToken_not_panicked (ros 0) g tok hr
    have hr1 := processToken_trackReady (ros 0) g tok hr
    obtain ⟨i1, i2, i3, i4⟩ := ih (fun i => ros (i + 1)) _ hr1 hrest
    have hstep : (processToken (ros 0) g tok).emitted = [tok] ∧
        (processToken (ros 0) g tok).globals.tracksChanged = g.tracksChanged ∧
        (processToken (ros 0) g tok).globals.cuesAdded = g.cuesAdded := by
      cases hcl : closesTrack g tok with
      | false =>
        exact ⟨processToken_emitted_of_not_closes _ g tok hcl,
          processToken_counters_of_not_closes _ g tok hcl⟩
      | true =>
        have hn : needsCue g = false := by simpa [hcl] using hhere
        rw [processToken_closes _ g tok hcl, missingKeys_eq_nil_of_not_needsCue _ g hn]
        simp [synthPairs]
    rw [run_cons]
    simp only [hnp, if_false, Bool.false_eq_true]
    refine ⟨?_, i2, ?_, ?_⟩
    · rw [hstep.1, i1]; rfl
    · rw [i3, hstep.2.1]
    · rw [i4, hstep.2.2]

theorem trackReady_init : TrackReady Globals.init := by
  intro h
  cases h

/-- C1. Structural fidelity: a run from the initial state in which no track
reaches its closing `TRACK` token with an aggregator entry that has a hot cue
and no plain cue emits exactly its input, token for token, does not panic, and
ends with both counters at 0. -/
theorem structural_fidelity (ros : Nat → RangeOrder) (toks : List Token)
    (h : cleanRun ros Globals.init toks = true) :
    (run ros Globals.init toks).emitted = toks ∧
      (run ros Globals.init toks).panicked = false ∧
      (run ros Globals.init toks).globals.tracksChanged = 0 ∧
      (run ros Globals.init toks).globals.cuesAdded = 0 :=
  run_clean toks ros Globals.init trackReady_init h

/-- The document `cleanInput` is copied token for token. -/
theorem structural_fidelity_witness :
    cleanRun (fun _ => RangeOrder.stored) Globals.init cleanInput = true ∧
    (run (fun _ => RangeOrder.stored) Globals.init cleanInput).emitted = cleanInput ∧
      (run (fun _ => RangeOrder.stored) Globals.init cleanInput).panicked = false ∧
      (run (fun _ => RangeOrder.stored) Globals.init cleanInput).globals.tracksChanged = 0 ∧
      (run (fun _ => RangeOrder.stored) Globals.init cleanInput).globals.cuesAdded = 0 :=
  ⟨by decide, structural_fidelity _ _ (by decide)⟩

/-! ## The counters are only ever added to -/

theorem processToken_addCounters (ro : RangeOrder) (a b : Nat) (g : Globals) (tok : Token) :
    processToken ro (addCounters a b g) tok =
      ⟨(processToken ro g tok).emitted, addCounters a b (processToken ro g tok).globals,
        (processToken ro g tok).panicked⟩ := by
  by_cases hs : g.state = ParseState.TRACK
  · have hs1 : (addCounters a b g).state = ParseState.TRACK := hs
    cases he : isTrackEnd tok with
    | true =>
      rw [processToken_closes ro g tok (by simp [closesTrack, hs, he]),
        processToken_closes ro _ tok (by simp [closesTrack, hs1, he])]
      simp [addCounters, Nat.add_right_comm]
    | false =>
      rw [processToken_track ro g tok hs he, processToken_track ro _ tok hs1 he]
      cases markerOf tok with
      | none => rfl
      | some sn =>
        cases hc : g.cues with
        | none => simp [addCounters, hc]
        | some m => simp [addCounters, hc]
  · rcases g with ⟨st, tn, cues, tc, ca⟩
    cases st <;> cases tok <;>
      simp [processToken, parseAtRoot, parseAtDJPlaylists, parseAtCollection, addCounters]
        at hs ⊢ <;>
      split_ifs <;> simp

theorem run_addCounters (toks : List Token) (ros : Nat → RangeOrder) (a b : Nat) (g : Globals) :
    run ros (addCounters a b g) toks =
      ⟨(run ros g toks).emitted, addCounters a b (run ros g toks).globals,
        (run ros g toks).panicked⟩ := by
  induction toks generalizing ros g with
  | nil => simp [run]
  | cons tok rest ih =>
    rw [run_cons, run_cons, processToken_addCounters]
    by_cases hp : (processToken (ros 0) g tok).panicked = true
    · simp [hp]
    · simp only [hp, if_false, Bool.false_eq_true]
      rw [ih]

theorem run_not_panicked (toks : List Token) (ros : Nat → RangeOrder) (g : Globals)
    (hr : TrackReady g) : (run ros g toks).panicked = false := by
  induction toks generalizing ros g with
  | nil => rfl
  | cons tok rest ih =>
    rw [run_cons]
    simp only [processToken_not_panicked (ros 0) g tok hr, if_false, Bool.false_eq_true]
    exact ih _ _ (processToken_trackReady (ros 0) g tok hr)

theorem trackReady_opened (name : String) :
    TrackReady ⟨ParseState.TRACK, name, some ∅, 0, 0⟩ :=
  fun _ => ⟨∅, rfl, AList.not_mem_empty _⟩

/-- A run that opens a track from Collection context is the run of the rest
from the fresh track state, with the counters of the start added. -/
theorem run_opening_track (ros : Nat → RangeOrder) (g : Globals) (el : XmlName)
    (attrs : List Attr) (rest : List Token)
    (hs : g.state = ParseState.COLLECTION) (hl : el.Local = "TRACK") :
    run ros g (Token.StartElement el attrs :: rest) =
      ⟨Token.StartElement el attrs ::
          (run (fun i => ros (i + 1)) ⟨ParseState.TRACK, scanTrackName attrs, some ∅, 0, 0⟩
            rest).emitted,
        addCounters g.tracksChanged g.cuesAdded
          (run (fun i => ros (i + 1)) ⟨ParseState.TRACK, scanTrackName attrs, some ∅, 0, 0⟩
            rest).globals,
        (run (fun i => ros (i + 1)) ⟨ParseState.TRACK, scanTrackName attrs, some ∅, 0, 0⟩
            rest).panicked⟩ := by
  have hstep : processToken (ros 0) g (Token.StartElement el attrs) =
      ⟨[Token.StartElement el attrs],
        addCounters g.tracksChanged g.cuesAdded
          ⟨ParseState.TRACK, scanTrackName attrs, some ∅, 0, 0⟩, false⟩ := by
    simp [processToken, hs, parseAtCollection, hl, addCounters]
  rw [run_cons, hstep]
  simp only [if_false, Bool.false_eq_true]
  rw [run_addCounters]
  rfl

/-! ## The iteration order only rearranges the synthesized pairs -/

theorem missingKeys_perm {es es1 : List CueEntry} (h : es.Perm es1) :
    (missingKeys es).Perm (missingKeys es1) :=
  (h.filter _).map _

theorem synthPairs_perm {ks ks1 : List String} (h : ks.Perm ks1) :
    (synthPairs ks).Perm (synthPairs ks1) := by
  induction h with
  | nil => exact List.Perm.refl _
  | cons x _ ih => exact (ih.cons synthEnd).cons (synthStart x)
  | swap x y l =>
    have h1 : ([synthStart y, synthEnd] ++ [synthStart x, synthEnd]).Perm
        ([synthStart x, synthEnd] ++ [synthStart y, synthEnd]) := List.perm_append_comm
    exact h1.append_right (synthPairs l)
  | trans _ _ ih1 ih2 => exact ih1.trans ih2

theorem rangeCues_perm (ro ro1 : RangeOrder) (cues : Option CueMap) :
    (rangeCues ro cues).Perm (rangeCues ro1 cues) := by
  cases cues with
  | none => exact List.Perm.refl _
  | some m => exact (ro.perm m).trans (ro1.perm m).symm

theorem processToken_order_of_not_closes (ro ro1 : RangeOrder) (g : Globals) (tok : Token)
    (h : closesTrack g tok = false) : processToken ro g tok = processToken ro1 g tok := by
  by_cases hs : g.state = ParseState.TRACK
  · have he : isTrackEnd tok = false := by simpa [closesTrack, hs] using h
    rw [processToken_track ro g tok hs he, processToken_track ro1 g tok hs he]
  · rcases g with ⟨st, tn, cues, tc, ca⟩
    cases st <;> simp [processToken] at hs ⊢

/-- One step under two iteration orders: the same state, the same panic flag,
and the same emitted tokens up to their order. -/
theorem processToken_order (ro ro1 : RangeOrder) (g : Globals) (tok : Token) :
    (processToken ro g tok).globals = (processToken ro1 g tok).globals ∧
    (processToken ro g tok).panicked = (processToken ro1 g tok).panicked ∧
    (processToken ro g tok).emitted.Perm (processToken ro1 g tok).emitted := by
  cases h : closesTrack g tok with
  | false =>
    rw [processToken_order_of_not_closes ro ro1 g tok h]
    exact ⟨rfl, rfl, List.Perm.refl _⟩
  | true =>
    have hp := missingKeys_perm (rangeCues_perm ro ro1 g.cues)
    rw [processToken_closes ro g tok h, processToken_closes ro1 g tok h]
    refine ⟨?_, rfl, (synthPairs_perm hp).append_right _⟩
    have hl := hp.length_eq
    have he : (missingKeys (rangeCues ro g.cues)).isEmpty =
        (missingKeys (rangeCues ro1 g.cues)).isEmpty := by
      cases h1 : missingKeys (rangeCues ro g.cues) <;>
        cases h2 : missingKeys (rangeCues ro1 g.cues) <;> simp [h1, h2] at hl ⊢
    simp only [hl, he]

/-- A run under two families of iteration orders: the same final state, the
same panic flag, and the same emitted tokens up to their order. -/
theorem run_order (toks : List Token) (ros ros1 : Nat → RangeOrder) (g : Globals) :
    (run ros g toks).globals = (run ros1 g toks).globals ∧
    (run ros g toks).panicked = (run ros1 g toks).panicked ∧
    (run ros g toks).emitted.Perm (run ros1 g toks).emitted := by
  induction toks generalizing ros ros1 g with
  | nil => exact ⟨rfl, rfl, List.Perm.refl _⟩
  | cons tok rest ih =>
    obtain ⟨p1, p2, p3⟩ := processToken_order (ros 0) (ros1 0) g tok
    rw [run_cons, run_cons]
    by_cases hp : (processToken (ros 0) g tok).panicked = true
    · have hp1 : (processToken (ros1 0) g tok).panicked = true := p2 ▸ hp
      simp only [hp, hp1, if_true]
      exact ⟨p1, trivial, p3⟩
    · have hp1 : ¬ (processToken (ros1 0) g tok).panicked = true := p2 ▸ hp
      simp only [hp, hp1, if_false, Bool.false_eq_true]
      obtain ⟨i1, i2, i3⟩ := ih (fun i => ros (i + 1)) (fun i => ros1 (i + 1))
        (processToken (ros 0) g tok).globals
      rw [← p1]
      exact ⟨i1, i2, p3.append i3⟩

/-- C5. Isolation across tracks: two runs of a token sequence that starts with
a `TRACK` start token, from any two states in Collection context and under the
same iteration orders, emit the same tokens, raise each counter by the same
amount, and end in the same context with the same aggregator and track name:
what an earlier track left in the aggregator has no effect. Under other
iteration orders a run ends in the same state, with the same tokens emitted up
to their order. -/
theorem track_isolation (ros : Nat → RangeOrder) (g1 g2 : Globals) (el : XmlName)
    (attrs : List Attr) (rest : List Token)
    (h1 : g1.state = ParseState.COLLECTION) (h2 : g2.state = ParseState.COLLECTION)
    (hl : el.Local = "TRACK") :
    (run ros g1 (Token.StartElement el attrs :: rest)).emitted =
        (run ros g2 (Token.StartElement el attrs :: rest)).emitted ∧
    (run ros g1 (Token.StartElement el attrs :: rest)).panicked = false ∧
    (run ros g2 (Token.StartElement el attrs :: rest)).panicked = false ∧
    (∃ dt dc : Nat,
      (run ros g1 (Token.StartElement el attrs :: rest)).globals.tracksChanged =
          g1.tracksChanged + dt ∧
      (run ros g2 (Token.StartElement el attrs :: rest)).globals.tracksChanged =
          g2.tracksChanged + dt ∧
      (run ros g1 (Token.StartElement el attrs :: rest)).globals.cuesAdded =
          g1.cuesAdded + dc ∧
      (run ros g2 (Token.StartElement el attrs :: rest)).globals.cuesAdded =
          g2.cuesAdded + dc) ∧
    (run ros g1 (Token.StartElement el attrs :: rest)).globals.state =
        (run ros g2 (Token.StartElement el attrs :: rest)).globals.state ∧
    (run ros g1 (Token.StartElement el attrs :: rest)).globals.cues =
        (run ros g2 (Token.StartElement el attrs :: rest)).globals.cues ∧
    (run ros g1 (Token.StartElement el attrs :: rest)).globals.trackName =
        (run ros g2 (Token.StartElement el attrs :: rest)).globals.trackName ∧
    (∀ ros1 : Nat → RangeOrder,
      (run ros1 g2 (Token.StartElement el attrs :: rest)).globals =
          (run ros g2 (Token.StartElement el attrs :: rest)).globals ∧
      (run ros1 g2 (Token.StartElement el attrs :: rest)).emitted.Perm
          (run ros g1 (Token.StartElement el attrs :: rest)).emitted) := by
  have hord : ∀ ros1 : Nat → RangeOrder,
      (run ros1 g2 (Token.StartElement el attrs :: rest)).globals =
          (run ros g2 (Token.StartElement el attrs :: rest)).globals ∧
      (run ros1 g2 (Token.StartElement el attrs :: rest)).emitted.Perm
          (run ros g2 (Token.StartElement el attrs :: rest)).emitted := fun ros1 =>
    ⟨(run_order _ ros1 ros g2).1, (run_order _ ros1 ros g2).2.2⟩
  rw [run_opening_track ros g1 el attrs rest h1 hl] 
  rw [run_opening_track ros g2 el attrs rest h2 hl] at hord ⊢
  have hnp := run_not_panicked rest (fun i => ros (i + 1)) _ (trackReady_opened (scanTrackName attrs))
  refine ⟨rfl, hnp, hnp,
    ⟨(run (fun i => ros (i + 1)) ⟨ParseState.TRACK, scanTrackName attrs, some ∅, 0, 0⟩
        rest).globals.tracksChanged,
      (run (fun i => ros (i + 1)) ⟨ParseState.TRACK, scanTrackName attrs, some ∅, 0, 0⟩
        rest).globals.cuesAdded, ?_, ?_, ?_, ?_⟩, rfl, rfl, rfl, hord⟩ <;>
    simp only [addCounters] <;> exact Nat.add_comm _ _

/-- The same track read from `leftoverA` and from `leftoverB` gives the same
tokens. -/
theorem track_isolation_witness :
    leftoverA.state = ParseState.COLLECTION ∧ leftoverB.state = ParseState.COLLECTION ∧
    (⟨"", "TRACK"⟩ : XmlName).Local = "TRACK" ∧
    (run (fun _ => RangeOrder.stored) leftoverA
        (Token.StartElement ⟨"", "TRACK"⟩ [] :: isolationInput)).emitted =
      (run (fun _ => RangeOrder.stored) leftoverB
        (Token.StartElement ⟨"", "TRACK"⟩ [] :: isolationInput)).emitted :=
  ⟨rfl, rfl, rfl,
    (track_isolation (fun _ => RangeOrder.stored) leftoverA leftoverB ⟨"", "TRACK"⟩ []
      isolationInput rfl rfl rfl).1⟩

/-! ## Markers with given attributes -/

theorem scanMarker_fst_of_all (attrs : List Attr) (p : String)
    (h : ∀ a ∈ attrs, a.Name.Local = "Start" → a.Value = p) :
    (scanMarker attrs).1 = p ∨ ∀ a ∈ attrs, a.Name.Local ≠ "Start" := by
  induction attrs using List.reverseRecOn with
  | nil => right; simp
  | append_singleton l a ih =>
    rw [scanMarker_snoc]
    by_cases ha : a.Name.Local = "Start"
    · left
      simp [ha, h a (by simp) ha]
    · rcases ih (fun b hb => h b (by simp [hb])) with h1 | h1
      · left
        rw [if_neg ha]
        split_ifs <;> exact h1
      · right
        intro b hb
        rcases List.mem_append.1 hb with hb | hb
        · exact h1 b hb
        · rw [List.mem_singleton.1 hb]; exact ha

theorem scanMarker_snd_of_all (attrs : List Attr) (n : String)
    (h : ∀ a ∈ attrs, a.Name.Local = "Num" → a.Value = n) :
    (scanMarker attrs).2 = n ∨ ∀ a ∈ attrs, a.Name.Local ≠ "Num" := by
  induction attrs using List.reverseRecOn with
  | nil => right; simp
  | append_singleton l a ih =>
    rw [scanMarker_snoc]
    by_cases ha : a.Name.Local = "Num"
    · left
      have hs : a.Name.Local ≠ "Start" := by rw [ha]; decide
      simp [ha, h a (by simp) ha]
    · rcases ih (fun b hb => h b (by simp [hb])) with h1 | h1
      · left
        rw [if_neg ha]
        split_ifs <;> exact h1
      · right
        intro b hb
        rcases List.mem_append.1 hb with hb | hb
        · exact h1 b hb
        · rw [List.mem_singleton.1 hb]; exact ha

theorem scanMarker_of_hasAttr (attrs : List Attr) (p n : String)
    (hp : HasAttr attrs "Start" p) (hn : HasAttr attrs "Num" n) : scanMarker attrs = (p, n) := by
  obtain ⟨⟨a, ha, hal⟩, hp2⟩ := hp
  obtain ⟨⟨b, hb, hbl⟩, hn2⟩ := hn
  have h1 : (scanMarker attrs).1 = p := by
    rcases scanMarker_fst_of_all attrs p hp2 with h | h
    · exact h
    · exact absurd hal (h a ha)
  have h2 : (scanMarker attrs).2 = n := by
    rcases scanMarker_snd_of_all attrs n hn2 with h | h
    · exact h
    · exact absurd hbl (h b hb)
  exact Prod.ext h1 h2

theorem markerOf_of_isMarker (p n : String) (tok : Token) (h : IsMarker p n tok)
    (hp : p ≠ "") (hn : n ≠ "") : markerOf tok = some (p, n) := by
  obtain ⟨el, attrs, rfl, hl, h1, h2⟩ := h
  simp [markerOf, hl, scanMarker_of_hasAttr attrs p n h1 h2, hp, hn]

/-! ## Flags are only ever raised within a track -/

theorem CueLe.refl (m : CueMap) : CueLe m m := fun _ c h => ⟨c, h, id, id⟩

theorem CueLe.trans {a b c : CueMap} (h1 : CueLe a b) (h2 : CueLe b c) : CueLe a c := by
  intro k x hx
  obtain ⟨y, hy, y1, y2⟩ := h1 k x hx
  obtain ⟨z, hz, z1, z2⟩ := h2 k y hy
  exact ⟨z, hz, fun h => z1 (y1 h), fun h => z2 (y2 h)⟩

theorem cueLe_recordCue (m : CueMap) (s n : String) : CueLe m (recordCue m s n) := by
  intro k c hk
  by_cases hks : k = s
  · subst hks
    rw [lookup_recordCue_self, hk]
    by_cases hn : n = "-1"
    · exact ⟨_, rfl, by simp [hn], by simp [hn]⟩
    · exact ⟨_, rfl, by simp [hn], by simp [hn]⟩
  · rw [lookup_recordCue_ne m s n k hks]
    exact ⟨c, hk, id, id⟩

theorem recordCue_sets (m : CueMap) (s n : String) :
    ∃ c, AList.lookup s (recordCue m s n) = some c ∧ (n = "-1" → c.cue = true) ∧
      (n ≠ "-1" → c.hotCue = true) := by
  rw [lookup_recordCue_self]
  by_cases hn : n = "-1"
  · exact ⟨_, rfl, by simp [hn], fun h => absurd hn h⟩
  · exact ⟨_, rfl, fun h => absurd h hn, by simp [hn]⟩

/-- One step inside a track, on a token other than the track end, with the map
initialised: no panic, the context stays Track, no flag is lowered, and a
recorded marker raises its flag. -/
theorem processToken_in_track (ro : RangeOrder) (g : Globals) (tok : Token) (m : CueMap)
    (hs : g.state = ParseState.TRACK) (hm : g.cues = some m) (he : isTrackEnd tok = false) :
    (processToken ro g tok).panicked = false ∧
    (processToken ro g tok).globals.state = ParseState.TRACK ∧
    ∃ m1, (processToken ro g tok).globals.cues = some m1 ∧ CueLe m m1 ∧
      ∀ s n, markerOf tok = some (s, n) →
        ∃ c, AList.lookup s m1 = some c ∧ (n = "-1" → c.cue = true) ∧
          (n ≠ "-1" → c.hotCue = true) := by
  rw [processToken_track ro g tok hs he]
  cases hmk : markerOf tok with
  | none => exact ⟨rfl, hs, m, hm, CueLe.refl m, fun _ _ h => by cases h⟩
  | some sn =>
    simp only [hm]
    refine ⟨trivial, hs, _, rfl, cueLe_recordCue m sn.1 sn.2, ?_⟩
    intro s n h
    cases h
    exact recordCue_sets m s n

/-- The body of a track, from a state in Track context with the map
initialised: no panic, the context stays Track, no flag is lowered, and every
recorded marker of the body has its flag raised at the end. -/
theorem run_in_track (body : List Token) (ros : Nat → RangeOrder) (g : Globals) (m : CueMap)
    (hs : g.state = ParseState.TRACK) (hm : g.cues = some m)
    (hbody : ∀ t ∈ body, isTrackEnd t = false) :
    (run ros g body).panicked = false ∧
    (run ros g body).globals.state = ParseState.TRACK ∧
    ∃ m1, (run ros g body).globals.cues = some m1 ∧ CueLe m m1 ∧
      ∀ t ∈ body, ∀ s n, markerOf t = some (s, n) →
        ∃ c, AList.lookup s m1 = some c ∧ (n = "-1" → c.cue = true) ∧
          (n ≠ "-1" → c.hotCue = true) := by
  induction body generalizing ros g m with
  | nil => exact ⟨rfl, hs, m, hm, CueLe.refl m, fun t ht => by cases ht⟩
  | cons tok rest ih =>
    obtain ⟨p1, p2, m1, p3, p4, p5⟩ :=
      processToken_in_track (ros 0) g tok m hs hm (hbody tok (by simp))
    obtain ⟨q1, q2, m2, q3, q4, q5⟩ :=
      ih (fun i => ros (i + 1)) _ m1 p2 p3 (fun t ht => hbody t (by simp [ht]))
    rw [run_cons]
    simp only [p1, if_false, Bool.false_eq_true]
    refine ⟨q1, q2, m2, q3, p4.trans q4, ?_⟩
    intro t ht s n hmk
    rcases List.mem_cons.1 ht with rfl | ht
    · obtain ⟨c, hc, c1, c2⟩ := p5 s n hmk
      obtain ⟨d, hd, d1, d2⟩ := q4 s c hc
      exact ⟨d, hd, fun h => d1 (c1 h), fun h => d2 (c2 h)⟩
    · exact q5 t ht s n hmk

theorem mem_synthPairs (t : Token) (ks : List String) (h : t ∈ synthPairs ks) :
    t = synthEnd ∨ ∃ k ∈ ks, t = synthStart k := by
  induction ks with
  | nil => simp [synthPairs] at h
  | cons k ks ih =>
    simp only [synthPairs, List.mem_cons] at h
    rcases h with h | h | h
    · exact Or.inr ⟨k, by simp, h⟩
    · exact Or.inl h
    · rcases ih h with h | ⟨k1, hk1, h⟩
      · exact Or.inl h
      · exact Or.inr ⟨k1, by simp [hk1], h⟩

theorem synthStart_injective (a b : String) (h : synthStart a = synthStart b) : a = b := by
  simpa [synthStart] using h

/-- C4. No duplicate insertion: a track opened from Collection context whose
body, up to the next `TRACK` end token, holds in any order a `POSITION_MARK`
start token with Start `p` and Num "-1" and one with Start `p` and another Num
(`p` non-empty) reaches its end without a panic and in Track context, with the
plain-cue flag of `p` set (and the hot-cue flag too when the other Num is
non-empty), and the `TRACK` end token then emits no synthesized marker for
`p`, whatever the iteration order. -/
theorem no_duplicate_insertion (ros : Nat → RangeOrder) (ro : RangeOrder) (g : Globals)
    (el : XmlName) (attrs : List Attr) (body : List Token) (elEnd : XmlName)
    (p n : String) (cueTok hotTok : Token)
    (hs : g.state = ParseState.COLLECTION) (hl : el.Local = "TRACK")
    (hbody : ∀ t ∈ body, isTrackEnd t = false) (hend : elEnd.Local = "TRACK")
    (hp : p ≠ "") (hn : n ≠ "-1")
    (hcue : cueTok ∈ body) (hcueM : IsMarker p "-1" cueTok)
    (hhot : hotTok ∈ body) (hhotM : IsMarker p n hotTok) :
    (run ros g (Token.StartElement el attrs :: body)).panicked = false ∧
    (run ros g (Token.StartElement el attrs :: body)).globals.state = ParseState.TRACK ∧
    (∃ c, cueAt (run ros g (Token.StartElement el attrs :: body)).globals p = some c ∧
      c.cue = true ∧ (n ≠ "" → c.hotCue = true)) ∧
    synthStart p ∉
      (processToken ro (run ros g (Token.StartElement el attrs :: body)).globals
        (Token.EndElement elEnd)).emitted := by
  obtain ⟨q1, q2, m1, q3, -, q5⟩ :=
    run_in_track body (fun i => ros (i + 1)) ⟨ParseState.TRACK, scanTrackName attrs, some ∅, 0, 0⟩
      ∅ rfl rfl hbody
  obtain ⟨c, hc, c1, -⟩ := q5 cueTok hcue p "-1" (markerOf_of_isMarker p "-1" cueTok hcueM hp
    (by decide))
  have hcue1 : c.cue = true := c1 rfl
  have hhot1 : n ≠ "" → c.hotCue = true := by
    intro hne
    obtain ⟨d, hd, -, d2⟩ := q5 hotTok hhot p n (markerOf_of_isMarker p n hotTok hhotM hp hne)
    rw [hc] at hd
    cases hd
    exact d2 hn
  rw [run_opening_track ros g el attrs body hs hl]
  have hcues : (addCounters g.tracksChanged g.cuesAdded
      (run (fun i => ros (i + 1)) ⟨ParseState.TRACK, scanTrackName attrs, some ∅, 0, 0⟩
        body).globals).cues = some m1 := q3
  have hat : cueAt (addCounters g.tracksChanged g.cuesAdded
      (run (fun i => ros (i + 1)) ⟨ParseState.TRACK, scanTrackName attrs, some ∅, 0, 0⟩
        body).globals) p = some c := by
    simp only [cueAt, hcues, hc]
  refine ⟨q1, q2, ⟨c, hat, hcue1, hhot1⟩, ?_⟩
  rw [processToken_closes ro _ _ (by
    simp only [closesTrack, isTrackEnd, hend, decide_True, Bool.and_true, decide_eq_true_eq]
    exact q2)]
  intro hmem
  rcases List.mem_append.1 hmem with hmem | hmem
  · rcases mem_synthPairs _ _ hmem with h | ⟨k, hk, h⟩
    · simp [synthStart, synthEnd, Token.End] at h
    · rw [← synthStart_injective p k h, mem_missingKeys_rangeCues] at hk
      obtain ⟨c2, hc2, -, hc3⟩ := hk
      rw [hat] at hc2
      cases hc2
      rw [hcue1] at hc3
      cases hc3
  · simp [synthStart] at hmem

theorem isMarker_start_num (p n : String) :
    IsMarker p n (Token.StartElement ⟨"", "POSITION_MARK"⟩ [⟨⟨"", "Start"⟩, p⟩, ⟨⟨"", "Num"⟩, n⟩]) := by
  refine ⟨_, _, rfl, rfl, ⟨⟨_, List.mem_cons_self _ _, rfl⟩, ?_⟩,
    ⟨⟨_, List.mem_cons_of_mem _ (List.mem_cons_self _ _), rfl⟩, ?_⟩⟩
  · intro a ha hl
    simp only [List.mem_cons, List.mem_singleton, List.not_mem_nil, or_false] at ha
    rcases ha with rfl | rfl
    · rfl
    · exact absurd (show "Num" = "Start" from hl) (by decide)
  · intro a ha hl
    simp only [List.mem_cons, List.mem_singleton, List.not_mem_nil, or_false] at ha
    rcases ha with rfl | rfl
    · exact absurd (show "Start" = "Num" from hl) (by decide)
    · rfl

/-- The track with the body `pairedBody`: no marker is synthesized for "8.0". -/
theorem no_duplicate_insertion_witness :
    leftoverB.state = ParseState.COLLECTION ∧
    (∀ t ∈ pairedBody, isTrackEnd t = false) ∧
    IsMarker "8.0" "-1"
      (Token.StartElement ⟨"", "POSITION_MARK"⟩ [⟨⟨"", "Start"⟩, "8.0"⟩, ⟨⟨"", "Num"⟩, "-1"⟩]) ∧
    IsMarker "8.0" "3"
      (Token.StartElement ⟨"", "POSITION_MARK"⟩ [⟨⟨"", "Start"⟩, "8.0"⟩, ⟨⟨"", "Num"⟩, "3"⟩]) ∧
    synthStart "8.0" ∉
      (processToken RangeOrder.reversed
        (run (fun _ => RangeOrder.stored) leftoverB
          (Token.StartElement ⟨"", "TRACK"⟩ [] :: pairedBody)).globals
        (Token.EndElement ⟨"", "TRACK"⟩)).emitted :=
  ⟨rfl, by decide, isMarker_start_num "8.0" "-1", isMarker_start_num "8.0" "3",
    (no_duplicate_insertion (fun _ => RangeOrder.stored) RangeOrder.reversed leftoverB
      ⟨"", "TRACK"⟩ [] pairedBody ⟨"", "TRACK"⟩ "8.0" "3"
      (Token.StartElement ⟨"", "POSITION_MARK"⟩ [⟨⟨"", "Start"⟩, "8.0"⟩, ⟨⟨"", "Num"⟩, "-1"⟩])
      (Token.StartElement ⟨"", "POSITION_MARK"⟩ [⟨⟨"", "Start"⟩, "8.0"⟩, ⟨⟨"", "Num"⟩, "3"⟩])
      rfl rfl (by decide) rfl (by decide) (by decide) (by decide)
      (isMarker_start_num "8.0" "-1") (by decide) (isMarker_start_num "8.0" "3")).2.2.2⟩

/-! ## Reading back the synthesized markers -/

theorem run_singleton (ros : Nat → RangeOrder) (g : Globals) (tok : Token) :
    run ros g [tok] = processToken (ros 0) g tok := by
  rw [run_cons]
  cases hp : (processToken (ros 0) g tok).panicked with
  | true => simp
  | false =>
    simp only [run, List.append_nil, if_false, Bool.false_eq_true]
    rw [← hp]

theorem markerOf_synthStart (k : String) (hk : k ≠ "") :
    markerOf (synthStart k) = some (k, "-1") := by
  simp [markerOf, synthStart, scanMarker, hk]

theorem cueLe_markAll (ks : List String) (m : CueMap) : CueLe m (markAll m ks) := by
  induction ks generalizing m with
  | nil => exact CueLe.refl m
  | cons k ks ih => exact (cueLe_recordCue m k "-1").trans (ih _)

theorem lookup_markAll_of_not_mem (ks : List String) (m : CueMap) (k : String) (h : k ∉ ks) :
    AList.lookup k (markAll m ks) = AList.lookup k m := by
  induction ks generalizing m with
  | nil => rfl
  | cons k0 ks ih =>
    have h0 : k ≠ k0 := fun e => h (by simp [e])
    have h1 : k ∉ ks := fun e => h (by simp [e])
    show AList.lookup k (markAll (recordCue m k0 "-1") ks) = _
    rw [ih _ h1, lookup_recordCue_ne m k0 "-1" k h0]

theorem lookup_markAll_of_mem (ks : List String) (m : CueMap) (k : String) (h : k ∈ ks) :
    ∃ c, AList.lookup k (markAll m ks) = some c ∧ c.cue = true := by
  induction ks generalizing m with
  | nil => cases h
  | cons k0 ks ih =>
    by_cases h1 : k ∈ ks
    · exact ih _ h1
    · have h0 : k = k0 := by
        rcases List.mem_cons.1 h with h | h
        · exact h
        · exact absurd h h1
      subst h0
      obtain ⟨c, hc, c1, -⟩ := recordCue_sets m k "-1"
      obtain ⟨d, hd, d1, -⟩ := cueLe_markAll ks (recordCue m k "-1") k c hc
      exact ⟨d, hd, d1 (c1 rfl)⟩

theorem mem_markAll (ks : List String) (m : CueMap) (k : String) :
    k ∈ markAll m ks ↔ k ∈ ks ∨ k ∈ m := by
  induction ks generalizing m with
  | nil => simp [markAll]
  | cons k0 ks ih =>
    show k ∈ markAll (recordCue m k0 "-1") ks ↔ _
    rw [ih, mem_recordCue, List.mem_cons]
    tauto

/-- Reading the synthesized pairs back inside a track: they are passed through
and each one records a plain cue at its position. -/
theorem run_synthPairs (ks : List String) (ros : Nat → RangeOrder) (g : Globals) (m : CueMap)
    (hs : g.state = ParseState.TRACK) (hm : g.cues = some m) (hk : ∀ k ∈ ks, k ≠ "") :
    run ros g (synthPairs ks) = ⟨synthPairs ks, { g with cues := some (markAll m ks) }, false⟩ := by
  induction ks generalizing ros g m with
  | nil =>
    simp only [synthPairs, run, markAll, List.foldl_nil, ← hm]
  | cons k ks ih =>
    have h1 : processToken (ros 0) g (synthStart k) =
        ⟨[synthStart k], { g with cues := some (recordCue m k "-1") }, false⟩ := by
      rw [processToken_track (ros 0) g (synthStart k) hs rfl,
        markerOf_synthStart k (hk k (by simp))]
      simp only [hm]
    have h2 : processToken (ros 1) { g with cues := some (recordCue m k "-1") } synthEnd =
        ⟨[synthEnd], { g with cues := some (recordCue m k "-1") }, false⟩ := by
      rw [processToken_track (ros 1) { g with cues := some (recordCue m k "-1") } synthEnd hs rfl]
      rfl
    simp only [synthPairs]
    rw [run_cons, h1]
    simp only [if_false, Bool.false_eq_true]
    rw [run_cons, h2]
    simp only [if_false, Bool.false_eq_true]
    rw [ih (fun i => ros (i + 1 + 1)) { g with cues := some (recordCue m k "-1") }
      (recordCue m k "-1") hs rfl (fun x hx => hk x (by simp [hx]))]
    rfl

theorem markerOf_ne_empty (tok : Token) (sn : String × String) (h : markerOf tok = some sn) :
    sn.1 ≠ "" ∧ sn.2 ≠ "" := by
  cases tok with
  | StartElement el attrs =>
    simp only [markerOf] at h
    split_ifs at h with hc
    cases h
    exact hc.2
  | _ => simp [markerOf] at h

/-- Once every position in need of a cue has had a plain cue recorded, no
entry is in need of a cue. -/
theorem needsCue_markAll (g : Globals) (m : CueMap) (ks : List String)
    (hks : ∀ k c, AList.lookup k m = some c → missingCue c = true → k ∈ ks) :
    needsCue { g with cues := some (markAll m ks) } = false := by
  cases hn : needsCue { g with cues := some (markAll m ks) } with
  | false => rfl
  | true =>
    simp only [needsCue, List.any_eq_true] at hn
    obtain ⟨⟨k, c⟩, hmem, hmiss⟩ := hn
    have hl : AList.lookup k (markAll m ks) = some c := AList.mem_lookup_iff.2 hmem
    by_cases hk : k ∈ ks
    · obtain ⟨d, hd, hcue⟩ := lookup_markAll_of_mem ks m k hk
      rw [hl] at hd
      cases hd
      simp [missingCue, hcue] at hmiss
    · rw [lookup_markAll_of_not_mem ks m k hk] at hl
      exact absurd (hks k c hl hmiss) hk

theorem replay_step (ro1 : RangeOrder) (g1 g2 : Globals) (tok : Token) (h : Replays g1 g2) :
    (processToken ro1 g1 tok).panicked = false ∧
    ∀ ros2 : Nat → RangeOrder,
      (run ros2 g2 (processToken ro1 g1 tok).emitted).panicked = false ∧
      (run ros2 g2 (processToken ro1 g1 tok).emitted).emitted =
        (processToken ro1 g1 tok).emitted ∧
      Replays (processToken ro1 g1 tok).globals
        (run ros2 g2 (processToken ro1 g1 tok).emitted).globals := by
  obtain ⟨hst, ht0, hc0, htr⟩ := h
  by_cases hs : g1.state = ParseState.TRACK
  · have hs2 : g2.state = ParseState.TRACK := hst ▸ hs
    obtain ⟨m, hm1, hm2, hne⟩ := htr hs
    cases he : isTrackEnd tok with
    | false =>
      rw [processToken_track ro1 g1 tok hs he]
      cases hmk : markerOf tok with
      | none =>
        refine ⟨rfl, fun ros2 => ?_⟩
        simp only [run_singleton, processToken_track (ros2 0) g2 tok hs2 he, hmk]
        exact ⟨trivial, trivial, hst, ht0, hc0, htr⟩
      | some sn =>
        simp only [hm1]
        refine ⟨trivial, fun ros2 => ?_⟩
        simp only [run_singleton, processToken_track (ros2 0) g2 tok hs2 he, hmk, hm2]
        refine ⟨trivial, trivial, hst, ht0, hc0, fun _ => ⟨_, rfl, rfl, ?_⟩⟩
        rw [mem_recordCue]
        rintro (h1 | h1)
        · exact (markerOf_ne_empty tok sn hmk).1 h1.symm
        · exact hne h1
    | true =>
      have hcl1 : closesTrack g1 tok = true := by simp [closesTrack, hs, he]
      rw [processToken_closes ro1 g1 tok hcl1]
      refine ⟨rfl, fun ros2 => ?_⟩
      have hkeys : ∀ k ∈ missingKeys (rangeCues ro1 g1.cues), k ≠ "" := by
        intro k hk hk0
        rw [mem_missingKeys_rangeCues] at hk
        obtain ⟨c, hc, -⟩ := hk
        simp only [cueAt, hm1] at hc
        have : k ∈ m := AList.lookup_isSome.1 (by rw [hc]; rfl)
        exact hne (hk0 ▸ this)
      have hrun := run_synthPairs (missingKeys (rangeCues ro1 g1.cues)) ros2 g2 m hs2 hm2 hkeys
      have hcl2 : closesTrack
          { g2 with cues := some (markAll m (missingKeys (rangeCues ro1 g1.cues))) } tok = true := by
        simp [closesTrack, hs2, he]
      have hneeds := needsCue_markAll g2 m (missingKeys (rangeCues ro1 g1.cues)) (by
        intro k c hl hmiss
        rw [mem_missingKeys_rangeCues]
        refine ⟨c, by simp only [cueAt, hm1, hl], ?_⟩
        simpa [missingCue] using hmiss)
      simp only [run_append, hrun, if_false, Bool.false_eq_true, run_singleton,
        processToken_closes _ _ tok hcl2,
        missingKeys_eq_nil_of_not_needsCue _ _ hneeds, synthPairs, List.nil_append]
      refine ⟨trivial, trivial, rfl, ?_, ?_, fun hc => by cases hc⟩
      · simpa using ht0
      · simpa using hc0
  · have hs2 : g2.state ≠ ParseState.TRACK := hst ▸ hs
    obtain ⟨a1, a2, -, -, a5⟩ := processToken_outside ro1 g1 tok hs
    refine ⟨a2, fun ros2 => ?_⟩
    obtain ⟨b1, b2, b3, b4, b5⟩ := processToken_outside (ros2 0) g2 tok hs2
    rw [a1, run_singleton]
    have hstate : (processToken ro1 g1 tok).globals.state =
        (processToken (ros2 0) g2 tok).globals.state := by
      rw [processToken_state, processToken_state, hst]
    refine ⟨b2, b1, hstate, b3.trans ht0, b4.trans hc0, fun hc => ?_⟩
    exact ⟨∅, a5 hc, b5 (hstate ▸ hc), AList.not_mem_empty _⟩

/-- The second run reads the whole output of the first in step with it, and
emits it unchanged. -/
theorem replay_run (toks : List Token) (ros1 ros2 : Nat → RangeOrder) (g1 g2 : Globals)
    (h : Replays g1 g2) :
    (run ros1 g1 toks).panicked = false ∧
    (run ros2 g2 (run ros1 g1 toks).emitted).panicked = false ∧
    (run ros2 g2 (run ros1 g1 toks).emitted).emitted = (run ros1 g1 toks).emitted ∧
    Replays (run ros1 g1 toks).globals (run ros2 g2 (run ros1 g1 toks).emitted).globals := by
  induction toks generalizing ros1 ros2 g1 g2 with
  | nil => exact ⟨rfl, rfl, rfl, h⟩
  | cons tok rest ih =>
    obtain ⟨p1, p2⟩ := replay_step (ros1 0) g1 g2 tok h
    obtain ⟨q1, q2, q3⟩ := p2 ros2
    obtain ⟨i1, i2, i3, i4⟩ := ih (fun i => ros1 (i + 1))
      (fun i => ros2 (i + (processToken (ros1 0) g1 tok).emitted.length)) _ _ q3
    rw [run_cons]
    simp only [p1, if_false, Bool.false_eq_true]
    rw [run_append]
    simp only [q1, if_false, Bool.false_eq_true]
    exact ⟨i1, i2, by rw [q2, i3], i4⟩

theorem replays_init : Replays Globals.init Globals.init :=
  ⟨rfl, rfl, rfl, fun h => by cases h⟩

/-- C2. Idempotence: for every token sequence and all iteration orders, the
run from the initial state gives an output without panicking, and the run
from the initial state on that output gives, without panicking, the same
output again, with `cuesAdded` and `tracksChanged` at 0. -/
theorem idempotence (ros1 ros2 : Nat → RangeOrder) (toks : List Token) :
    (run ros1 Globals.init toks).panicked = false ∧
    (run ros2 Globals.init (run ros1 Globals.init toks).emitted).panicked = false ∧
    (run ros2 Globals.init (run ros1 Globals.init toks).emitted).emitted =
      (run ros1 Globals.init toks).emitted ∧
    (run ros2 Globals.init (run ros1 Globals.init toks).emitted).globals.cuesAdded = 0 ∧
    (run ros2 Globals.init (run ros1 Globals.init toks).emitted).globals.tracksChanged = 0 := by
  obtain ⟨h1, h2, h3, -, h4, h5, -⟩ := replay_run toks ros1 ros2 Globals.init Globals.init replays_init
  exact ⟨h1, h2, h3, h5, h4⟩

/-! ## The token loop of `main` and `run` -/

/-- On a source that yields tokens only, the token loop of `main` is `run`. -/
theorem tokenLoop_of_tokens (toks : List Token) (ros : Nat → RangeOrder) (g : Globals) :
    tokenLoop ros g (toks.map (fun t => ⟨some t, none⟩)) =
      ⟨(run ros g toks).emitted, (run ros g toks).globals,
        if (run ros g toks).panicked then LoopEnd.panicked else LoopEnd.finished⟩ := by
  induction toks generalizing ros g with
  | nil => rfl
  | cons tok rest ih =>
    simp only [List.map_cons, tokenLoop, run_cons]
    by_cases hp : (processToken (ros 0) g tok).panicked = true
    · simp [hp]
    · simp only [hp, if_false, Bool.false_eq_true]
      rw [ih]

/-- Under the contract of `Decoder.Token` the process never ends with exit
code 10. -/
theorem mainExit_ne_ten (src : List ReadResult) (h : ∀ r ∈ src, DecoderResult r)
    (ros : Nat → RangeOrder) (flushFails : Bool) :
    mainExit ros src flushFails ≠ ExitStatus.exit 10 := by
  have hne := tokenLoop_ending_ne_readError src h ros Globals.init
  unfold mainExit
  cases he : (tokenLoop ros Globals.init src).ending with
  | readError => exact absurd he hne
  | panicked => simp
  | finished => cases flushFails <;> simp

/-! ## The aggregator: frame and reset -/

theorem markerOf_eq_none_of_not_markStart (tok : Token) (h : isMarkStart tok = false) :
    markerOf tok = none := by
  cases tok <;> simp_all [markerOf, isMarkStart]

theorem processToken_cues_frame (ro : RangeOrder) (g : Globals) (tok : Token)
    (hmark : ¬ (g.state = ParseState.TRACK ∧ isMarkStart tok = true))
    (htrack : ¬ (g.state = ParseState.COLLECTION ∧ isTrackStart tok = true)) :
    (processToken ro g tok).globals.cues = g.cues := by
  by_cases hs : g.state = ParseState.TRACK
  · cases he : isTrackEnd tok with
    | true => rw [processToken_closes ro g tok (by simp [closesTrack, hs, he])]
    | false =>
      have hm : isMarkStart tok = false := by
        cases h : isMarkStart tok with
        | false => rfl
        | true => exact absurd ⟨hs, h⟩ hmark
      rw [processToken_track ro g tok hs he, markerOf_eq_none_of_not_markStart tok hm]
  · rcases g with ⟨st, tn, cues, tc, ca⟩
    cases st <;> cases tok <;>
      simp [processToken, parseAtRoot, parseAtDJPlaylists, parseAtCollection, isTrackStart]
        at hs htrack ⊢ <;>
      split_ifs <;> simp_all

/-- C14. Aggregator frame: a step changes the aggregator only when it is a
`POSITION_MARK` start token met in Track context or a `TRACK` start token met
in Collection context; for every other context and token, whatever the state,
the aggregator after the step is the aggregator before it. -/
theorem aggregator_frame (ro : RangeOrder) (g : Globals) (tok : Token)
    (hmark : ¬ (g.state = ParseState.TRACK ∧ isMarkStart tok = true))
    (htrack : ¬ (g.state = ParseState.COLLECTION ∧ isTrackStart tok = true)) :
    (processToken ro g tok).globals.cues = g.cues :=
  processToken_cues_frame ro g tok hmark htrack

/-- A `POSITION_MARK` start token met in Collection context leaves the
aggregator of `leftoverA` as it was. -/
theorem aggregator_frame_witness :
    ¬ (leftoverA.state = ParseState.TRACK ∧
        isMarkStart (Token.StartElement ⟨"", "POSITION_MARK"⟩
          [⟨⟨"", "Start"⟩, "9.0"⟩, ⟨⟨"", "Num"⟩, "1"⟩]) = true) ∧
    ¬ (leftoverA.state = ParseState.COLLECTION ∧
        isTrackStart (Token.StartElement ⟨"", "POSITION_MARK"⟩
          [⟨⟨"", "Start"⟩, "9.0"⟩, ⟨⟨"", "Num"⟩, "1"⟩]) = true) ∧
    (processToken RangeOrder.stored leftoverA
        (Token.StartElement ⟨"", "POSITION_MARK"⟩
          [⟨⟨"", "Start"⟩, "9.0"⟩, ⟨⟨"", "Num"⟩, "1"⟩])).globals.cues = leftoverA.cues :=
  ⟨by decide, by decide,
    aggregator_frame RangeOrder.stored leftoverA _ (by decide) (by decide)⟩

/-- C13, as stated, fails: after the library `playlistInput` the context is
PlaylistsRoot, and the `TRACK` start token of a playlist entry leaves the
entry of the last collection track in the aggregator. -/
theorem track_start_outside_collection_keeps_aggregator :
    (run (fun _ => RangeOrder.stored) Globals.init playlistInput).globals.state =
        ParseState.DJ_PLAYLISTS ∧
    isTrackStart (Token.StartElement ⟨"", "TRACK"⟩ [⟨⟨"", "Key"⟩, "1"⟩]) = true ∧
    cueAt (processToken RangeOrder.stored
        (run (fun _ => RangeOrder.stored) Globals.init playlistInput).globals
        (Token.StartElement ⟨"", "TRACK"⟩ [⟨⟨"", "Key"⟩, "1"⟩])).globals "1.0" =
      some ⟨true, false⟩ := by
  decide

/-- C13, amended. Aggregator reset at track start: in Collection context a
`TRACK` start token leaves the aggregator initialised and empty; in every other
context a `TRACK` start token leaves the aggregator as it was. -/
theorem aggregator_reset_at_track_start (ro : RangeOrder) (g : Globals) (el : XmlName)
    (attrs : List Attr) (hl : el.Local = "TRACK") :
    (g.state = ParseState.COLLECTION →
      (processToken ro g (Token.StartElement el attrs)).globals.cues = some ∅) ∧
    (g.state ≠ ParseState.COLLECTION →
      (processToken ro g (Token.StartElement el attrs)).globals.cues = g.cues) := by
  constructor
  · intro hs
    simp [processToken, hs, parseAtCollection, hl]
  · intro hs
    refine processToken_cues_frame ro g _ ?_ (fun h => hs h.1)
    rintro ⟨-, h⟩
    simp only [isMarkStart, hl, decide_eq_true_eq] at h
    exact absurd h (by decide)

/-- The track start read from `leftoverA` empties its aggregator. -/
theorem aggregator_reset_at_track_start_witness :
    (⟨"", "TRACK"⟩ : XmlName).Local = "TRACK" ∧
    (processToken RangeOrder.stored leftoverA
      (Token.StartElement ⟨"", "TRACK"⟩ [])).globals.cues = some ∅ :=
  ⟨rfl, (aggregator_reset_at_track_start RangeOrder.stored leftoverA ⟨"", "TRACK"⟩ [] rfl).1 rfl⟩

/-! ## Reachable states -/

theorem run_trackReady (toks : List Token) (ros : Nat → RangeOrder) (g : Globals)
    (hr : TrackReady g) : TrackReady (run ros g toks).globals := by
  induction toks generalizing ros g with
  | nil => exact hr
  | cons tok rest ih =>
    rw [run_cons]
    simp only [processToken_not_panicked (ros 0) g tok hr, if_false, Bool.false_eq_true]
    exact ih _ _ (processToken_trackReady (ros 0) g tok hr)

/-- C16. Aggregator initialised in Track context: a run from the initial state
never panics; in the state it reaches, if the context is Track the map is
initialised; and no token processed next can hit the write to a nil map. -/
theorem aggregator_initialised_in_track (ros : Nat → RangeOrder) (toks : List Token) :
    (run ros Globals.init toks).panicked = false ∧
    ((run ros Globals.init toks).globals.state = ParseState.TRACK →
      ∃ m, (run ros Globals.init toks).globals.cues = some m) ∧
    (∀ (ro : RangeOrder) (tok : Token),
      (processToken ro (run ros Globals.init toks).globals tok).panicked = false) := by
  have hr := run_trackReady toks ros Globals.init trackReady_init
  refine ⟨run_not_panicked toks ros Globals.init trackReady_init, ?_, ?_⟩
  · intro hs
    obtain ⟨m, hm, -⟩ := hr hs
    exact ⟨m, hm⟩
  · intro ro tok
    exact processToken_not_panicked ro _ tok hr

/-! ## The counters -/

theorem processToken_counters_mono (ro : RangeOrder) (g : Globals) (tok : Token) :
    g.tracksChanged ≤ (processToken ro g tok).globals.tracksChanged ∧
      g.cuesAdded ≤ (processToken ro g tok).globals.cuesAdded := by
  cases h : closesTrack g tok with
  | false =>
    obtain ⟨h1, h2⟩ := processToken_counters_of_not_closes ro g tok h
    rw [h1, h2]
    exact ⟨Nat.le_refl _, Nat.le_refl _⟩
  | true =>
    rw [processToken_closes ro g tok h]
    exact ⟨Nat.le_add_right _ _, Nat.le_add_right _ _⟩

theorem processToken_countersOk (ro : RangeOrder) (g : Globals) (tok : Token)
    (h : CountersOk g) : CountersOk (processToken ro g tok).globals := by
  cases hc : closesTrack g tok with
  | false =>
    obtain ⟨h1, h2⟩ := processToken_counters_of_not_closes ro g tok hc
    unfold CountersOk
    rw [h1, h2]
    exact h
  | true =>
    rw [processToken_closes ro g tok hc]
    obtain ⟨h1, h2⟩ := h
    unfold CountersOk
    cases hk : missingKeys (rangeCues ro g.cues) with
    | nil => simpa using ⟨h1, h2⟩
    | cons k ks =>
      simp only [List.isEmpty_cons, Bool.false_eq_true, if_false, List.length_cons]
      constructor <;> omega

theorem run_countersOk (toks : List Token) (ros : Nat → RangeOrder) (g : Globals)
    (h : CountersOk g) : CountersOk (run ros g toks).globals := by
  induction toks generalizing ros g with
  | nil => exact h
  | cons tok rest ih =>
    rw [run_cons]
    by_cases hp : (processToken (ros 0) g tok).panicked = true
    · simp only [hp, if_true]
      exact processToken_countersOk _ g tok h
    · simp only [hp, if_false, Bool.false_eq_true]
      exact ih _ _ (processToken_countersOk _ g tok h)

/-- C19. Counter consistency: in every state that a run from the initial state
reaches, `tracksChanged` is at most `cuesAdded` and is 0 exactly when
`cuesAdded` is 0; and in every state whatever, processing a token lowers
neither counter. -/
theorem counter_consistency :
    (∀ (ros : Nat → RangeOrder) (toks : List Token),
      (run ros Globals.init toks).globals.tracksChanged ≤
          (run ros Globals.init toks).globals.cuesAdded ∧
      ((run ros Globals.init toks).globals.tracksChanged = 0 ↔
          (run ros Globals.init toks).globals.cuesAdded = 0)) ∧
    (∀ (ro : RangeOrder) (g : Globals) (tok : Token),
      g.tracksChanged ≤ (processToken ro g tok).globals.tracksChanged ∧
      g.cuesAdded ≤ (processToken ro g tok).globals.cuesAdded) :=
  ⟨fun ros toks => run_countersOk toks ros Globals.init ⟨Nat.le_refl _, Iff.rfl⟩,
    processToken_counters_mono⟩

/-! ## The entry a marker writes -/

theorem lookup_recordCue (m : CueMap) (s n k : String) :
    AList.lookup k (recordCue m s n) =
      if k = s then some (raiseFlag n ((AList.lookup s m).getD ⟨false, false⟩))
      else AList.lookup k m := by
  by_cases h : k = s
  · subst h
    rw [if_pos rfl, lookup_recordCue_self]
    rfl
  · rw [if_neg h, lookup_recordCue_ne m s n k h]

theorem raiseFlag_comm (n1 n2 : String) (c : cuePoint) :
    raiseFlag n1 (raiseFlag n2 c) = raiseFlag n2 (raiseFlag n1 c) := by
  unfold raiseFlag
  split_ifs <;> rfl

theorem lookup_recordCue_comm (m : CueMap) (s1 n1 s2 n2 k : String) :
    AList.lookup k (recordCue (recordCue m s1 n1) s2 n2) =
      AList.lookup k (recordCue (recordCue m s2 n2) s1 n1) := by
  simp only [lookup_recordCue]
  by_cases h12 : s1 = s2
  · subst h12
    by_cases hk : k = s1
    · simp [hk, raiseFlag_comm n1 n2]
    · simp [hk]
  · have h21 : ¬ s2 = s1 := fun h => h12 h.symm
    by_cases hk1 : k = s1
    · subst hk1
      simp [h12, h21]
    · by_cases hk2 : k = s2
      · subst hk2
        simp [h12, h21]
      · simp [hk1, hk2]

/-- C11, as stated, fails: a `POSITION_MARK` start token that carries a `Start`
attribute and a `Num` attribute, one of them with the empty value, is not
recorded, and the aggregator has no entry for its `Start` value afterwards. -/
theorem empty_valued_marker_not_recorded :
    HasAttr [⟨⟨"", "Start"⟩, "4.0"⟩, ⟨⟨"", "Num"⟩, ""⟩] "Start" "4.0" ∧
    HasAttr [⟨⟨"", "Start"⟩, "4.0"⟩, ⟨⟨"", "Num"⟩, ""⟩] "Num" "" ∧
    cueAt (processToken RangeOrder.stored ⟨ParseState.TRACK, "t", some ∅, 0, 0⟩
        (Token.StartElement ⟨"", "POSITION_MARK"⟩
          [⟨⟨"", "Start"⟩, "4.0"⟩, ⟨⟨"", "Num"⟩, ""⟩])).globals "4.0" = none ∧
    HasAttr [⟨⟨"", "Start"⟩, ""⟩, ⟨⟨"", "Num"⟩, "5"⟩] "Start" "" ∧
    HasAttr [⟨⟨"", "Start"⟩, ""⟩, ⟨⟨"", "Num"⟩, "5"⟩] "Num" "5" ∧
    cueAt (processToken RangeOrder.stored ⟨ParseState.TRACK, "t", some ∅, 0, 0⟩
        (Token.StartElement ⟨"", "POSITION_MARK"⟩
          [⟨⟨"", "Start"⟩, ""⟩, ⟨⟨"", "Num"⟩, "5"⟩])).globals "" = none := by
  unfold HasAttr
  decide

/-- C11, amended. Aggregation of a recognised marker: in Track context with the
map initialised, a `POSITION_MARK` start token whose `Start` value `s` and `Num`
value `n` are both non-empty is emitted alone without a panic, and afterwards
the entry for `s` is the previous entry for `s` (both flags false when there
was none) with `cue` raised when `n` is "-1" and `hotCue` raised otherwise, the
other flag and every other key being as before. -/
theorem marker_aggregation (ro : RangeOrder) (g : Globals) (m : CueMap) (el : XmlName)
    (attrs : List Attr) (s n : String)
    (hs : g.state = ParseState.TRACK) (hm : g.cues = some m)
    (hl : el.Local = "POSITION_MARK")
    (hstart : HasAttr attrs "Start" s) (hnum : HasAttr attrs "Num" n)
    (hs0 : s ≠ "") (hn0 : n ≠ "") :
    (processToken ro g (Token.StartElement el attrs)).emitted = [Token.StartElement el attrs] ∧
    (processToken ro g (Token.StartElement el attrs)).panicked = false ∧
    ∃ m1, (processToken ro g (Token.StartElement el attrs)).globals.cues = some m1 ∧
      AList.lookup s m1 =
        some (if n = "-1" then { (AList.lookup s m).getD ⟨false, false⟩ with cue := true }
              else { (AList.lookup s m).getD ⟨false, false⟩ with hotCue := true }) ∧
      ∀ k, k ≠ s → AList.lookup k m1 = AList.lookup k m := by
  have hmk : markerOf (Token.StartElement el attrs) = some (s, n) :=
    markerOf_of_isMarker s n _ ⟨el, attrs, rfl, hl, hstart, hnum⟩ hs0 hn0
  rw [processToken_track ro g (Token.StartElement el attrs) hs rfl, hmk]
  simp only [hm]
  exact ⟨trivial, trivial, _, rfl, lookup_recordCue_self m s n,
    fun k hk => lookup_recordCue_ne m s n k hk⟩

/-- A hot cue at "2.5" read in a fresh track, then a plain cue at the same
position. -/
theorem marker_aggregation_witness :
    (⟨ParseState.TRACK, "t", some (recordCue ∅ "2.5" "3"), 0, 0⟩ : Globals).state =
        ParseState.TRACK ∧
    HasAttr [⟨⟨"", "Start"⟩, "2.5"⟩, ⟨⟨"", "Num"⟩, "-1"⟩] "Start" "2.5" ∧
    HasAttr [⟨⟨"", "Start"⟩, "2.5"⟩, ⟨⟨"", "Num"⟩, "-1"⟩] "Num" "-1" ∧
    cueAt (processToken RangeOrder.stored
        ⟨ParseState.TRACK, "t", some (recordCue ∅ "2.5" "3"), 0, 0⟩
        (Token.StartElement ⟨"", "POSITION_MARK"⟩
          [⟨⟨"", "Start"⟩, "2.5"⟩, ⟨⟨"", "Num"⟩, "-1"⟩])).globals "2.5" = some ⟨true, true⟩ ∧
    ∃ m1, (processToken RangeOrder.stored
        ⟨ParseState.TRACK, "t", some (recordCue ∅ "2.5" "3"), 0, 0⟩
        (Token.StartElement ⟨"", "POSITION_MARK"⟩
          [⟨⟨"", "Start"⟩, "2.5"⟩, ⟨⟨"", "Num"⟩, "-1"⟩])).globals.cues = some m1 ∧
      ∀ k, k ≠ "2.5" → AList.lookup k m1 = AList.lookup k (recordCue ∅ "2.5" "3") :=
  ⟨rfl, by unfold HasAttr; decide, by unfold HasAttr; decide, by decide,
    ((marker_aggregation RangeOrder.stored
      ⟨ParseState.TRACK, "t", some (recordCue ∅ "2.5" "3"), 0, 0⟩ (recordCue ∅ "2.5" "3")
      ⟨"", "POSITION_MARK"⟩ [⟨⟨"", "Start"⟩, "2.5"⟩, ⟨⟨"", "Num"⟩, "-1"⟩] "2.5" "-1"
      rfl rfl rfl (by unfold HasAttr; decide) (by unfold HasAttr; decide)
      (by decide) (by decide)).2.2).imp fun _ h => ⟨h.1, h.2.2⟩⟩

/-! ## The order of the markers of a track -/

theorem processToken_track_cues (ro : RangeOrder) (g : Globals) (tok : Token)
    (hs : g.state = ParseState.TRACK) (he : isTrackEnd tok = false) :
    (processToken ro g tok).globals.cues = applyMark g.cues tok ∧
    (processToken ro g tok).globals.state = ParseState.TRACK ∧
    ((processToken ro g tok).panicked = true → applyMark g.cues tok = g.cues) := by
  rw [processToken_track ro g tok hs he]
  unfold applyMark
  cases markerOf tok with
  | none => exact ⟨rfl, hs, fun _ => rfl⟩
  | some sn =>
    cases hc : g.cues with
    | none => exact ⟨hc, hs, fun _ => rfl⟩
    | some m => exact ⟨rfl, hs, fun h => by cases h⟩

theorem applyMark_none (toks : List Token) : toks.foldl applyMark none = none := by
  induction toks with
  | nil => rfl
  | cons t ts ih =>
    rw [List.foldl_cons]
    have : applyMark none t = none := by
      unfold applyMark
      cases markerOf t <;> rfl
    rw [this, ih]

/-- The aggregator after a stretch of tokens inside a track. -/
theorem run_track_cues (toks : List Token) (ros : Nat → RangeOrder) (g : Globals)
    (hs : g.state = ParseState.TRACK) (he : ∀ t ∈ toks, isTrackEnd t = false) :
    (run ros g toks).globals.cues = toks.foldl applyMark g.cues := by
  induction toks generalizing ros g with
  | nil => rfl
  | cons tok rest ih =>
    obtain ⟨h1, h2, h3⟩ := processToken_track_cues (ros 0) g tok hs (he tok (by simp))
    rw [run_cons, List.foldl_cons]
    by_cases hp : (processToken (ros 0) g tok).panicked = true
    · simp only [hp, if_true]
      have hnil : g.cues = none := by
        rw [processToken_track (ros 0) g tok hs (he tok (by simp))] at hp
        cases hm : markerOf tok with
        | none => simp [hm] at hp
        | some sn =>
          cases hc : g.cues with
          | none => rfl
          | some m => simp [hm, hc] at hp
      rw [h1, h3 hp, hnil, applyMark_none]
    · simp only [hp, if_false, Bool.false_eq_true]
      rw [ih _ _ h2 (fun t ht => he t (by simp [ht])), h1]

theorem toFinmap_eq_iff_lookup (m1 m2 : CueMap) :
    AList.toFinmap m1 = AList.toFinmap m2 ↔ ∀ k, AList.lookup k m1 = AList.lookup k m2 := by
  constructor
  · intro h k
    have := congrArg (Finmap.lookup k) h
    simpa using this
  · intro h
    exact Finmap.ext_lookup (fun k => by simpa using h k)

theorem applyMark_congr (c1 c2 : Option CueMap) (tok : Token)
    (h : c1.map AList.toFinmap = c2.map AList.toFinmap) :
    (applyMark c1 tok).map AList.toFinmap = (applyMark c2 tok).map AList.toFinmap := by
  unfold applyMark
  cases hm : markerOf tok with
  | none => exact h
  | some sn =>
    cases c1 with
    | none =>
      cases c2 with
      | none => rfl
      | some m2 => simp at h
    | some m1 =>
      cases c2 with
      | none => simp at h
      | some m2 =>
        simp only [Option.map_some', Option.some.injEq] at h ⊢
        rw [toFinmap_eq_iff_lookup] at h ⊢
        intro k
        rw [lookup_recordCue, lookup_recordCue, h k, h sn.1]

theorem applyMark_comm (c : Option CueMap) (a b : Token) :
    (applyMark (applyMark c a) b).map AList.toFinmap =
      (applyMark (applyMark c b) a).map AList.toFinmap := by
  unfold applyMark
  cases ha : markerOf a with
  | none =>
    cases hb : markerOf b with
    | none => rfl
    | some sb => cases c <;> simp [ha]
  | some sa =>
    cases hb : markerOf b with
    | none => cases c <;> simp [hb]
    | some sb =>
      cases c with
      | none => rfl
      | some m =>
        simp only [ha, hb, Option.map_some', Option.some.injEq]
        rw [toFinmap_eq_iff_lookup]
        intro k
        exact lookup_recordCue_comm m sa.1 sa.2 sb.1 sb.2 k

theorem foldl_applyMark_congr (toks : List Token) (c1 c2 : Option CueMap)
    (h : c1.map AList.toFinmap = c2.map AList.toFinmap) :
    (toks.foldl applyMark c1).map AList.toFinmap =
      (toks.foldl applyMark c2).map AList.toFinmap := by
  induction toks generalizing c1 c2 with
  | nil => exact h
  | cons t ts ih => exact ih _ _ (applyMark_congr c1 c2 t h)

theorem foldl_applyMark_perm {l1 l2 : List Token} (hp : l1.Perm l2) (c1 c2 : Option CueMap)
    (h : c1.map AList.toFinmap = c2.map AList.toFinmap) :
    (l1.foldl applyMark c1).map AList.toFinmap =
      (l2.foldl applyMark c2).map AList.toFinmap := by
  induction hp generalizing c1 c2 with
  | nil => exact h
  | cons x _ ih => exact ih _ _ (applyMark_congr c1 c2 x h)
  | swap x y l =>
    simp only [List.foldl_cons]
    apply foldl_applyMark_congr
    rw [applyMark_comm c1 y x]
    exact applyMark_congr _ _ y (applyMark_congr c1 c2 x h)
  | trans _ _ ih1 ih2 => exact (ih1 c1 c2 h).trans (ih2 c2 c2 rfl)

theorem cueAt_eq_of_cuesOf_eq (g1 g2 : Globals) (h : cuesOf g1 = cuesOf g2) (k : String) :
    cueAt g1 k = cueAt g2 k := by
  unfold cuesOf at h
  unfold cueAt
  cases h1 : g1.cues with
  | none =>
    cases h2 : g2.cues with
    | none => rfl
    | some m2 => simp [h1, h2] at h
  | some m1 =>
    cases h2 : g2.cues with
    | none => simp [h1, h2] at h
    | some m2 =>
      simp only [h1, h2, Option.map_some', Option.some.injEq] at h
      exact (toFinmap_eq_iff_lookup m1 m2).1 h k

theorem isTrackEnd_of_isMarkStart (tok : Token) (h : isMarkStart tok = true) :
    isTrackEnd tok = false := by
  cases tok <;> simp_all [isMarkStart, isTrackEnd]

/-- Two stretches of tokens inside a track that are rearrangements of each
other leave the same aggregator and the same positions in need of a cue. -/
theorem run_track_perm (ros ros1 : Nat → RangeOrder) (g : Globals) (l1 l2 : List Token)
    (hs : g.state = ParseState.TRACK) (he : ∀ t ∈ l1, isTrackEnd t = false)
    (hp : l1.Perm l2) :
    cuesOf (run ros g l1).globals = cuesOf (run ros1 g l2).globals ∧
    ∀ (ro ro1 : RangeOrder) (k : String),
      k ∈ missingKeys (rangeCues ro (run ros g l1).globals.cues) ↔
        k ∈ missingKeys (rangeCues ro1 (run ros1 g l2).globals.cues) := by
  have he2 : ∀ t ∈ l2, isTrackEnd t = false := fun t ht => he t (hp.mem_iff.2 ht)
  have h : cuesOf (run ros g l1).globals = cuesOf (run ros1 g l2).globals := by
    unfold cuesOf
    rw [run_track_cues l1 ros g hs he, run_track_cues l2 ros1 g hs he2]
    exact foldl_applyMark_perm hp g.cues g.cues rfl
  refine ⟨h, fun ro ro1 k => ?_⟩
  rw [mem_missingKeys_rangeCues, mem_missingKeys_rangeCues, cueAt_eq_of_cuesOf_eq _ _ h k]

/-- C18. Marker order does not matter: from any state in Track context,
whatever its aggregator, observing the `POSITION_MARK` start tokens `a` then
`b` leaves the same aggregator, as a map from positions to flags, as observing
`b` then `a`; and any two rearrangements of a stretch of tokens of a track leave
the same aggregator and hence the same set of positions that get a synthesized
cue at the track end, whatever the iteration orders. -/
theorem marker_order_irrelevant (ros ros1 : Nat → RangeOrder) (g : Globals) (a b : Token)
    (hs : g.state = ParseState.TRACK) (ha : isMarkStart a = true)
    (hb : isMarkStart b = true) :
    cuesOf (run ros g [a, b]).globals = cuesOf (run ros1 g [b, a]).globals ∧
    (∀ k, cueAt (run ros g [a, b]).globals k = cueAt (run ros1 g [b, a]).globals k) ∧
    (∀ l1 l2 : List Token, (∀ t ∈ l1, isTrackEnd t = false) → l1.Perm l2 →
      cuesOf (run ros g l1).globals = cuesOf (run ros1 g l2).globals ∧
      ∀ (ro ro1 : RangeOrder) (k : String),
        k ∈ missingKeys (rangeCues ro (run ros g l1).globals.cues) ↔
          k ∈ missingKeys (rangeCues ro1 (run ros1 g l2).globals.cues)) := by
  have hab : ∀ t ∈ [a, b], isTrackEnd t = false := by
    intro t ht
    simp only [List.mem_cons, List.mem_singleton, List.not_mem_nil, or_false] at ht
    rcases ht with rfl | rfl
    · exact isTrackEnd_of_isMarkStart _ ha
    · exact isTrackEnd_of_isMarkStart _ hb
  have h := (run_track_perm ros ros1 g [a, b] [b, a] hs hab (List.Perm.swap b a [])).1
  exact ⟨h, cueAt_eq_of_cuesOf_eq _ _ h,
    fun l1 l2 he hp => run_track_perm ros ros1 g l1 l2 hs he hp⟩

/-- A hot cue at "1.0" and a plain cue at "2.0", read in either order after the
hot cue of `leftoverA`. -/
theorem marker_order_irrelevant_witness :
    (⟨ParseState.TRACK, "t", leftoverA.cues, 0, 0⟩ : Globals).state = ParseState.TRACK ∧
    isMarkStart (Token.StartElement ⟨"", "POSITION_MARK"⟩
      [⟨⟨"", "Start"⟩, "1.0"⟩, ⟨⟨"", "Num"⟩, "0"⟩]) = true ∧
    isMarkStart (Token.StartElement ⟨"", "POSITION_MARK"⟩
      [⟨⟨"", "Start"⟩, "2.0"⟩, ⟨⟨"", "Num"⟩, "-1"⟩]) = true ∧
    cuesOf (run (fun _ => RangeOrder.stored) ⟨ParseState.TRACK, "t", leftoverA.cues, 0, 0⟩
        [Token.StartElement ⟨"", "POSITION_MARK"⟩ [⟨⟨"", "Start"⟩, "1.0"⟩, ⟨⟨"", "Num"⟩, "0"⟩],
         Token.StartElement ⟨"", "POSITION_MARK"⟩
           [⟨⟨"", "Start"⟩, "2.0"⟩, ⟨⟨"", "Num"⟩, "-1"⟩]]).globals =
      cuesOf (run (fun _ => RangeOrder.reversed) ⟨ParseState.TRACK, "t", leftoverA.cues, 0, 0⟩
        [Token.StartElement ⟨"", "POSITION_MARK"⟩ [⟨⟨"", "Start"⟩, "2.0"⟩, ⟨⟨"", "Num"⟩, "-1"⟩],
         Token.StartElement ⟨"", "POSITION_MARK"⟩
           [⟨⟨"", "Start"⟩, "1.0"⟩, ⟨⟨"", "Num"⟩, "0"⟩]]).globals :=
  ⟨rfl, by decide, by decide,
    (marker_order_irrelevant (fun _ => RangeOrder.stored) (fun _ => RangeOrder.reversed)
      ⟨ParseState.TRACK, "t", leftoverA.cues, 0, 0⟩ _ _ rfl (by decide) (by decide)).1⟩

/-! ## The output is the input with pairs woven in -/

theorem weave_length (kss : List (List String)) (toks : List Token)
    (h : kss.length = toks.length) :
    (weave kss toks).length = toks.length + 2 * totalKeys kss := by
  induction kss generalizing toks with
  | nil =>
    cases toks with
    | nil => rfl
    | cons t ts => simp at h
  | cons ks kss ih =>
    cases toks with
    | nil => simp at h
    | cons t ts =>
      have h1 : kss.length = ts.length := by simpa using h
      simp only [weave, List.length_append, List.length_cons, synthPairs_length, ih ts h1,
        totalKeys, List.map_cons, List.sum_cons]
      omega

/-- The step at one token as a block of pairs followed by the token. -/
theorem processToken_block (ro : RangeOrder) (g : Globals) (tok : Token) :
    ∃ ks : List String,
      (processToken ro g tok).emitted = synthPairs ks ++ [tok] ∧
      (processToken ro g tok).globals.cuesAdded = g.cuesAdded + ks.length ∧
      (ks ≠ [] → g.state = ParseState.TRACK ∧ isTrackEnd tok = true) := by
  cases h : closesTrack g tok with
  | false =>
    refine ⟨[], ?_, ?_, fun hk => absurd rfl hk⟩
    · rw [processToken_emitted_of_not_closes ro g tok h]; rfl
    · rw [(processToken_counters_of_not_closes ro g tok h).2]; rfl
  | true =>
    refine ⟨missingKeys (rangeCues ro g.cues), ?_, ?_, fun _ => ?_⟩
    · rw [processToken_closes ro g tok h]
    · rw [processToken_closes ro g tok h]
    · simpa [closesTrack] using h

/-- A run without a panic weaves blocks of pairs into its input, a non-empty
block only before a `TRACK` end token, and counts the pairs. -/
theorem run_weave (toks : List Token) (ros : Nat → RangeOrder) (g : Globals)
    (hr : TrackReady g) :
    ∃ kss : List (List String),
      kss.length = toks.length ∧
      (run ros g toks).emitted = weave kss toks ∧
      (run ros g toks).globals.cuesAdded = g.cuesAdded + totalKeys kss ∧
      ∀ p ∈ kss.zip toks, p.1 ≠ [] → isTrackEnd p.2 = true := by
  induction toks generalizing ros g with
  | nil => exact ⟨[], rfl, rfl, rfl, fun p hp => by cases hp⟩
  | cons tok rest ih =>
    obtain ⟨ks, e1, e2, e3⟩ := processToken_block (ros 0) g tok
    obtain ⟨kss, i1, i2, i3, i4⟩ := ih (fun i => ros (i + 1)) _
      (processToken_trackReady (ros 0) g tok hr)
    refine ⟨ks :: kss, by simp [i1], ?_, ?_, ?_⟩
    · rw [run_cons]
      simp only [processToken_not_panicked (ros 0) g tok hr, if_false, Bool.false_eq_true]
      rw [e1, i2]
      simp [weave]
    · rw [run_cons]
      simp only [processToken_not_panicked (ros 0) g tok hr, if_false, Bool.false_eq_true]
      rw [i3, e2]
      simp only [totalKeys, List.map_cons, List.sum_cons]
      omega
    · intro p hp hne
      simp only [List.zip_cons_cons, List.mem_cons] at hp
      rcases hp with rfl | hp
      · exact (e3 hne).2
      · exact i4 p hp hne

/-- C15. Output is input plus balanced insertions: the output of a run from the
initial state is its input with, before each input token, a block of
synthesized start/end pairs woven in, so that removing the blocks gives back
the input; a block is non-empty only before a `TRACK` end token of the input;
the number of pairs is the final `cuesAdded`; and the output is longer than the
input by twice the final `cuesAdded`. -/
theorem output_is_input_plus_pairs (ros : Nat → RangeOrder) (toks : List Token) :
    (∃ kss : List (List String),
      kss.length = toks.length ∧
      (run ros Globals.init toks).emitted = weave kss toks ∧
      (∀ p ∈ kss.zip toks, p.1 ≠ [] → isTrackEnd p.2 = true) ∧
      totalKeys kss = (run ros Globals.init toks).globals.cuesAdded) ∧
    (run ros Globals.init toks).emitted.length =
      toks.length + 2 * (run ros Globals.init toks).globals.cuesAdded := by
  obtain ⟨kss, h1, h2, h3, h4⟩ := run_weave toks ros Globals.init trackReady_init
  have h5 : totalKeys kss = (run ros Globals.init toks).globals.cuesAdded := by
    rw [h3]
    simp [Globals.init]
  refine ⟨⟨kss, h1, h2, h4, h5⟩, ?_⟩
  rw [h2, weave_length kss toks h1, h5]

/-! ## Nesting -/

theorem nesting_synthPairs (ks : List String) (stack : List XmlName) (rest : List Token) :
    nesting stack (synthPairs ks ++ rest) = nesting stack rest := by
  induction ks with
  | nil => rfl
  | cons k ks ih =>
    simp only [synthPairs, List.cons_append, synthStart, synthEnd, Token.End, nesting, if_true]
    exact ih

theorem nesting_weave (kss : List (List String)) (toks : List Token) (stack : List XmlName)
    (h : kss.length = toks.length) : nesting stack (weave kss toks) = nesting stack toks := by
  induction toks generalizing kss stack with
  | nil =>
    cases kss with
    | nil => rfl
    | cons ks kss => simp at h
  | cons tok rest ih =>
    cases kss with
    | nil => simp at h
    | cons ks kss =>
      have h1 : kss.length = rest.length := by simpa using h
      rw [weave, nesting_synthPairs]
      cases tok with
      | StartElement el attrs => cases stack <;> simp only [nesting] <;> exact ih kss _ h1
      | EndElement el =>
        cases stack with
        | nil => rfl
        | cons top stack =>
          simp only [nesting]
          split_ifs
          · exact ih kss _ h1
          · rfl
      | CharData d => cases stack <;> simp only [nesting] <;> exact ih kss _ h1
      | Comment d => cases stack <;> simp only [nesting] <;> exact ih kss _ h1
      | ProcInst t i => cases stack <;> simp only [nesting] <;> exact ih kss _ h1
      | Directive d => cases stack <;> simp only [nesting] <;> exact ih kss _ h1

/-- The output of a run from the initial state nests exactly as its input
does, from any stack of open elements. -/
theorem nesting_run (ros : Nat → RangeOrder) (toks : List Token) (stack : List XmlName) :
    nesting stack (run ros Globals.init toks).emitted = nesting stack toks := by
  obtain ⟨kss, h1, h2, -, -⟩ := run_weave toks ros Globals.init trackReady_init
  rw [h2, nesting_weave kss toks stack h1]

/-- C17. Well-nestedness is preserved: when the start and end tokens of the
input are properly nested with matching names, so are those of the output of
the run from the initial state. -/
theorem well_nestedness_preserved (ros : Nat → RangeOrder) (toks : List Token)
    (h : WellNested toks) : WellNested (run ros Globals.init toks).emitted := by
  unfold WellNested at h ⊢
  rw [nesting_run ros toks [], h]

/-- The scenario document is properly nested, and so is its output. -/
theorem well_nestedness_preserved_witness :
    WellNested scenarioInput ∧
    WellNested (run (fun _ => RangeOrder.reversed) Globals.init scenarioInput).emitted :=
  ⟨by unfold WellNested; decide,
    well_nestedness_preserved (fun _ => RangeOrder.reversed) scenarioInput
      (by unfold WellNested; decide)⟩

/-! ## The keys of the aggregator and the markers of the open track -/

theorem mem_applyMark (m : CueMap) (tok : Token) :
    ∃ m1, applyMark (some m) tok = some m1 ∧
      ∀ k, k ∈ m1 ↔ k ∈ m ∨ ∃ n, markerOf tok = some (k, n) := by
  unfold applyMark
  cases hm : markerOf tok with
  | none => exact ⟨m, rfl, fun k => by simp⟩
  | some sn =>
    refine ⟨_, rfl, fun k => ?_⟩
    rw [mem_recordCue]
    constructor
    · rintro (h | h)
      · exact Or.inr ⟨sn.2, by rw [h]⟩
      · exact Or.inl h
    · rintro (h | ⟨n, h⟩)
      · exact Or.inr h
      · cases h
        exact Or.inl rfl

theorem mem_foldl_applyMark (toks : List Token) (m : CueMap) :
    ∃ m1, toks.foldl applyMark (some m) = some m1 ∧
      ∀ k, k ∈ m1 ↔ k ∈ m ∨ ∃ t ∈ toks, ∃ n, markerOf t = some (k, n) := by
  induction toks generalizing m with
  | nil => exact ⟨m, rfl, fun k => by simp⟩
  | cons t ts ih =>
    obtain ⟨m1, h1, h2⟩ := mem_applyMark m t
    obtain ⟨m2, h3, h4⟩ := ih m1
    refine ⟨m2, by rw [List.foldl_cons, h1, h3], fun k => ?_⟩
    rw [h4, h2]
    constructor
    · rintro ((h | ⟨n, h⟩) | ⟨t1, ht1, n, h⟩)
      · exact Or.inl h
      · exact Or.inr ⟨t, by simp, n, h⟩
      · exact Or.inr ⟨t1, by simp [ht1], n, h⟩
    · rintro (h | ⟨t1, ht1, n, h⟩)
      · exact Or.inl (Or.inl h)
      · rcases List.mem_cons.1 ht1 with rfl | ht1
        · exact Or.inl (Or.inr ⟨n, h⟩)
        · exact Or.inr ⟨t1, ht1, n, h⟩

theorem transition_eq_track (s : ParseState) (tok : Token)
    (h : transition s tok = ParseState.TRACK) :
    (s = ParseState.TRACK ∧ isTrackEnd tok = false) ∨
      (s = ParseState.COLLECTION ∧
        ∃ el attrs, tok = Token.StartElement el attrs ∧ el.Local = "TRACK") := by
  cases s <;> cases tok <;> simp [transition, isTrackEnd] at h ⊢ <;>
    (try split_ifs at h) <;> simp_all

theorem run_snoc_state (ros : Nat → RangeOrder) (g : Globals) (l : List Token) (t : Token)
    (hr : TrackReady g) :
    (run ros g (l ++ [t])).globals.state = transition (run ros g l).globals.state t := by
  rw [run_append]
  simp only [run_not_panicked l ros g hr, if_false, Bool.false_eq_true, run_singleton,
    processToken_state]

/-- A run from the initial state that ends in Track context has read, after a
prefix that ends in Collection context, the `TRACK` start token that opened
the track and then no `TRACK` end token. -/
theorem exists_track_opening (ros : Nat → RangeOrder) (toks : List Token)
    (h : (run ros Globals.init toks).globals.state = ParseState.TRACK) :
    ∃ pre el attrs body, toks = pre ++ Token.StartElement el attrs :: body ∧
      (run ros Globals.init pre).globals.state = ParseState.COLLECTION ∧
      el.Local = "TRACK" ∧ ∀ t ∈ body, isTrackEnd t = false := by
  induction toks using List.reverseRecOn with
  | nil => cases h
  | append_singleton l t ih =>
    rw [run_snoc_state ros Globals.init l t trackReady_init] at h
    rcases transition_eq_track _ t h with ⟨hs, he⟩ | ⟨hs, el, attrs, rfl, hl⟩
    · obtain ⟨pre, el, attrs, body, rfl, h1, h2, h3⟩ := ih hs
      refine ⟨pre, el, attrs, body ++ [t], by simp, h1, h2, ?_⟩
      intro x hx
      rcases List.mem_append.1 hx with hx | hx
      · exact h3 x hx
      · rw [List.mem_singleton.1 hx]; exact he
    · exact ⟨l, el, attrs, [], rfl, hs, hl, fun x hx => by cases hx⟩

/-- The aggregator of a track opened from Collection context, after a body
without a `TRACK` end token: initialised, its keys being the positions of the
recorded markers of the body. -/
theorem keys_of_open_track (ros : Nat → RangeOrder) (g : Globals) (el : XmlName)
    (attrs : List Attr) (body : List Token)
    (hs : g.state = ParseState.COLLECTION) (hl : el.Local = "TRACK")
    (hb : ∀ t ∈ body, isTrackEnd t = false) :
    ∃ m, (run ros g (Token.StartElement el attrs :: body)).globals.cues = some m ∧
      ∀ k, k ∈ m ↔ ∃ t ∈ body, ∃ n, markerOf t = some (k, n) := by
  obtain ⟨m, h1, h2⟩ := mem_foldl_applyMark body ∅
  refine ⟨m, ?_, fun k => ?_⟩
  · rw [run_opening_track ros g el attrs body hs hl]
    show (run (fun i => ros (i + 1)) ⟨ParseState.TRACK, scanTrackName attrs, some ∅, 0, 0⟩
      body).globals.cues = some m
    rw [run_track_cues body _ _ rfl hb, h1]
  · rw [h2]
    simp [AList.not_mem_empty]

theorem markerOf_eq_some_iff (tok : Token) (k n : String) :
    markerOf tok = some (k, n) ↔
      ∃ el attrs, tok = Token.StartElement el attrs ∧ el.Local = "POSITION_MARK" ∧
        scanMarker attrs = (k, n) ∧ k ≠ "" ∧ n ≠ "" := by
  constructor
  · intro h
    obtain ⟨hk, hn⟩ := markerOf_ne_empty tok (k, n) h
    cases tok with
    | StartElement el attrs =>
      simp only [markerOf] at h
      split_ifs at h with hc
      exact ⟨el, attrs, rfl, hc.1, Option.some.inj h, hk, hn⟩
    | _ => simp [markerOf] at h
  · rintro ⟨el, attrs, rfl, h1, h2, h3, h4⟩
    simp only [markerOf]
    rw [if_pos ⟨h1, by rw [h2]; exact h3, by rw [h2]; exact h4⟩, h2]

/-- C12, as stated, fails: the open track of `numlessInput` has processed a
`POSITION_MARK` start token whose `Start` attribute is "3.0", and "3.0" is not
a key of the aggregator. -/
theorem numless_marker_leaves_no_key :
    (run (fun _ => RangeOrder.stored) Globals.init numlessInput).globals.state =
        ParseState.TRACK ∧
    numlessInput.getLast? =
      some (Token.StartElement ⟨"", "POSITION_MARK"⟩ [⟨⟨"", "Start"⟩, "3.0"⟩]) ∧
    HasAttr [⟨⟨"", "Start"⟩, "3.0"⟩] "Start" "3.0" ∧
    cueAt (run (fun _ => RangeOrder.stored) Globals.init numlessInput).globals "3.0" = none := by
  unfold HasAttr
  decide

/-- C12, amended. Aggregator key invariant: a run from the initial state that
ends in Track context has read, after a prefix ending in Collection context,
the `TRACK` start token that opened the current track and then a body without
a `TRACK` end token; the aggregator is initialised, and a position is one of
its keys if and only if the body holds a `POSITION_MARK` start token whose
`Start` value is that position and whose `Start` and `Num` values are both
non-empty. -/
theorem aggregator_key_invariant (ros : Nat → RangeOrder) (toks : List Token)
    (h : (run ros Globals.init toks).globals.state = ParseState.TRACK) :
    ∃ pre el attrs body, toks = pre ++ Token.StartElement el attrs :: body ∧
      (run ros Globals.init pre).globals.state = ParseState.COLLECTION ∧
      el.Local = "TRACK" ∧ (∀ t ∈ body, isTrackEnd t = false) ∧
      ∃ m, (run ros Globals.init toks).globals.cues = some m ∧
        ∀ k, k ∈ m ↔
          ∃ t ∈ body, ∃ n el1 attrs1, t = Token.StartElement el1 attrs1 ∧
            el1.Local = "POSITION_MARK" ∧ scanMarker attrs1 = (k, n) ∧ k ≠ "" ∧ n ≠ "" := by
  obtain ⟨pre, el, attrs, body, rfl, h1, h2, h3⟩ := exists_track_opening ros toks h
  refine ⟨pre, el, attrs, body, rfl, h1, h2, h3, ?_⟩
  obtain ⟨m, hm, hk⟩ := keys_of_open_track (fun i => ros (i + pre.length))
    (run ros Globals.init pre).globals el attrs body h1 h2 h3
  refine ⟨m, ?_, fun k => ?_⟩
  · rw [run_append]
    simp only [run_not_panicked pre ros Globals.init trackReady_init, if_false,
      Bool.false_eq_true]
    exact hm
  · rw [hk]
    constructor
    · rintro ⟨t, ht, n, hmk⟩
      exact ⟨t, ht, n, (markerOf_eq_some_iff t k n).1 hmk⟩
    · rintro ⟨t, ht, n, hmk⟩
      exact ⟨t, ht, n, (markerOf_eq_some_iff t k n).2 hmk⟩

/-- The scenario document cut before the end of its track: the aggregator
holds the key of its one marker. -/
theorem aggregator_key_invariant_witness :
    (run (fun _ => RangeOrder.stored) Globals.init (scenarioInput.take 5)).globals.state =
        ParseState.TRACK ∧
    ∃ pre el attrs body, scenarioInput.take 5 = pre ++ Token.StartElement el attrs :: body ∧
      (run (fun _ => RangeOrder.stored) Globals.init pre).globals.state =
        ParseState.COLLECTION ∧
      el.Local = "TRACK" ∧ (∀ t ∈ body, isTrackEnd t = false) ∧
      ∃ m, (run (fun _ => RangeOrder.stored) Globals.init (scenarioInput.take 5)).globals.cues =
          some m ∧
        ∀ k, k ∈ m ↔
          ∃ t ∈ body, ∃ n el1 attrs1, t = Token.StartElement el1 attrs1 ∧
            el1.Local = "POSITION_MARK" ∧ scanMarker attrs1 = (k, n) ∧ k ≠ "" ∧ n ≠ "" :=
  ⟨by decide, aggregator_key_invariant (fun _ => RangeOrder.stored) (scenarioInput.take 5)
    (by decide)⟩

end Cuemaker
